import Mathlib

/-!
# Collaborative hypertext editor: synchronisation core

The editor component `src/hypertext-editor/HypertextEditor.js` obtains its step
engine (steps, inversion, position mapping) from the ProseMirror packages it
imports, and talks to a collaboration coordinator only through
`window.hypertextAPI`.  Neither the step engine nor the coordinator is part of
the sources of this repository, so the definitions below that describe them are
modelled from `spec.md` (sections 3, 4 and 6) and say so in their doc comments.
The handlers of the component itself (`dispatchTransaction`,
`handleCollaborativeUpdate`, `handleCollabUpdate`, `addAnnotation`), the
creation of the editor state and the DOM mapping of `hypertextSchema` are
embedded from the source, with the ProseMirror functions they call taken as
parameters; `window.hypertextAPI` is the object that
`src/src/preload/preload.js` exposes.  The conversion of item content in
`generateTeXPreview`, `startExport`, `togglePageSelection` and `formatBytes`
are embedded from `src/export-engine/ExportPanel.js`, `loadPage` and
`navigateBack` from `src/client/ClientBrowser.js`, and `performSearch` and the
second `formatBytes` from `src/knowbot/KnowbotPanel.js`.  String methods of the
platform are either given by their definition on characters (`startsWith`,
`includes`, `trim`) or taken as parameters (`toUpperCase`, `toLowerCase`), and
so are the floating-point expressions of `formatBytes`.
-/

namespace HypertextSync

/-! ## Data model (spec section 3) -/

/-- Modelled from the spec: the `bias` argument of `map` (section 4.3), which
decides on which side of an insertion a position sitting exactly at the
insertion point ends up.  The step engine is furnished by the imported
ProseMirror packages and is missing from the sources. -/
inductive Bias where
  | left
  | right
deriving DecidableEq, Repr

/-- Modelled from the spec: a Mark (section 3) is a type tag plus attributes.
The mark model belongs to the missing step engine. -/
structure Mark where
  type : String
  attrs : List (String × String)
deriving DecidableEq, Repr

/-- Modelled from the spec: one entry of the flattened addressing of the
document tree (section 3, Position: "document-order character/node index").
An index addresses a character of inline text together with the marks applied
to it, or the opening or closing boundary of a child node.  The tree model
belongs to the missing step engine. -/
inductive Item where
  | char (c : Char) (marks : List Mark)
  | openNode (type : String) (attrs : List (String × String))
  | closeNode
deriving DecidableEq, Repr

/-- Modelled from the spec: the Document Tree (section 3) in its flattened
addressing; a Position is an index into this sequence.  The tree model belongs
to the missing step engine. -/
abbrev Tree := List Item

/-- Modelled from the spec: the Step variants of section 3,
`Insert(at, content)`, `Delete(from, to)`, `Replace(from, to, content)`,
`AddMark(from, to, mark)` and `RemoveMark(from, to, markType)`.  The step
engine is missing from the sources. -/
inductive Step where
  | insert (pos : Nat) (content : List Item)
  | delete (start stop : Nat)
  | replace (start stop : Nat) (content : List Item)
  | addMark (start stop : Nat) (mark : Mark)
  | removeMark (start stop : Nat) (markType : String)
deriving DecidableEq, Repr

/-- Plain text as a run of unmarked characters. -/
def plainText (s : String) : Tree :=
  s.toList.map (fun c => Item.char c [])

/-- The characters addressed by a run of the flattened tree, node boundaries
left out. -/
def textOf : List Item → String
  | [] => ""
  | Item.char c _ :: rest => String.mk (c :: (textOf rest).toList)
  | _ :: rest => textOf rest

/-- The run of the flattened tree between two positions. -/
def slice (t : Tree) (start stop : Nat) : List Item :=
  (t.take stop).drop start

/-! ## Step engine (spec section 4.3) -/

/-- Modelled from the spec: the Insert case of `map` (section 4.3).  For an
insertion of length `len` at `pos`, positions before `pos` are unchanged, a
position exactly at `pos` shifts according to the bias (left keeps it before
the insertion, right moves it after), later positions shift by `len`. -/
def mapInsert (pos len p : Nat) (bias : Bias) : Nat :=
  if p < pos then p
  else if p = pos then
    (match bias with
     | Bias.left => p
     | Bias.right => p + len)
  else p + len

/-- Modelled from the spec: the Delete case of `map` (section 4.3).  Positions
at or after `stop` shift by -(stop - start), positions in [start, stop)
collapse to `start`, earlier positions are unchanged. -/
def mapDelete (start stop p : Nat) : Nat :=
  if stop ≤ p then p - (stop - start)
  else if start ≤ p then start
  else p

/-- Modelled from the spec: the position mapping `map(step, position, bias)` of
section 4.3.  Replace is Delete composed with Insert at `from`; AddMark and
RemoveMark are the identity.  The step engine is furnished by the imported
ProseMirror packages and is missing from the sources. -/
def map : Step → Nat → Bias → Nat
  | Step.insert pos content, p, bias => mapInsert pos content.length p bias
  | Step.delete start stop, p, _ => mapDelete start stop p
  | Step.replace start stop content, p, bias =>
      mapInsert start content.length (mapDelete start stop p) bias
  | Step.addMark _ _ _, p, _ => p
  | Step.removeMark _ _ _, p, _ => p

/-- Modelled from the spec: mapping through a step sequence is folding `map`
over each step in order (section 4.3). -/
def mapThrough (steps : List Step) (p : Nat) (bias : Bias) : Nat :=
  steps.foldl (fun q s => map s q bias) p

/-- Modelled from the spec: AddMark on one entry of the flattened tree.  A
mark is applied to inline content only; an entry already carrying the mark is
left as it is. -/
def addMarkTo (m : Mark) : Item → Item
  | Item.char c marks => if m ∈ marks then Item.char c marks else Item.char c (marks ++ [m])
  | it => it

/-- Modelled from the spec: RemoveMark on one entry of the flattened tree:
every mark of the given type is taken off. -/
def removeMarkFrom (markType : String) : Item → Item
  | Item.char c marks => Item.char c (marks.filter (fun m => m.type != markType))
  | it => it

/-- Modelled from the spec: the effect of a Step on the flattened tree, before
validation.  A step whose positions do not address the tree (a position past
the end, or `from` after `to`) yields no tree. -/
def rewrite (t : Tree) : Step → Option Tree
  | Step.insert pos content =>
      if pos ≤ t.length then some (t.take pos ++ content ++ t.drop pos) else none
  | Step.delete start stop =>
      if start ≤ stop ∧ stop ≤ t.length then some (t.take start ++ t.drop stop) else none
  | Step.replace start stop content =>
      if start ≤ stop ∧ stop ≤ t.length then
        some (t.take start ++ content ++ t.drop stop) else none
  | Step.addMark start stop mark =>
      if start ≤ stop ∧ stop ≤ t.length then
        some (t.take start ++ (slice t start stop).map (addMarkTo mark) ++ t.drop stop)
      else none
  | Step.removeMark start stop markType =>
      if start ≤ stop ∧ stop ≤ t.length then
        some (t.take start ++ (slice t start stop).map (removeMarkFrom markType) ++ t.drop stop)
      else none

/-- Modelled from the spec: `apply(tree, step) -> new_tree | SchemaViolation`
(section 4.2), with the Schema Registry contract `validate` (section 4.1) taken
as a parameter and checked on the resulting tree.  `none` stands for
SchemaViolation; a step that does not address the tree is refused the same
way. -/
def apply (validate : Tree → Bool) (t : Tree) (s : Step) : Option Tree :=
  match rewrite t s with
  | some t' => if validate t' then some t' else none
  | none => none

/-- Modelled from the spec: `invert(step, tree_before) -> step'` (section 4.3),
the exact inverse computed against the pre-application tree.  Delete inverts to
the Insert of the content it removed, Insert to the Delete of the inserted
range, Replace to the Replace that puts the removed content back.  A mark step
inverts to the Replace that puts back the run as it was marked before, the one
Step variant that restores an arbitrary earlier marking. -/
def invert : Step → Tree → Step
  | Step.insert pos content, _ => Step.delete pos (pos + content.length)
  | Step.delete start stop, t => Step.insert start (slice t start stop)
  | Step.replace start stop content, t =>
      Step.replace start (start + content.length) (slice t start stop)
  | Step.addMark start stop _, t => Step.replace start stop (slice t start stop)
  | Step.removeMark start stop _, t => Step.replace start stop (slice t start stop)

/-- The range of positions whose content a step removes: [from, to) for Delete
and Replace, nothing for the other steps. -/
def inDeletedRange : Step → Nat → Bool
  | Step.delete start stop, p => decide (start ≤ p ∧ p < stop)
  | Step.replace start stop _, p => decide (start ≤ p ∧ p < stop)
  | _, _ => false

/-- The range of positions whose content a step removes or whose marks it
rewrites: [from, to) for every step but Insert. -/
def inTouchedRange : Step → Nat → Bool
  | Step.insert _ _, _ => false
  | Step.delete start stop, p => decide (start ≤ p ∧ p < stop)
  | Step.replace start stop _, p => decide (start ≤ p ∧ p < stop)
  | Step.addMark start stop _, p => decide (start ≤ p ∧ p < stop)
  | Step.removeMark start stop _, p => decide (start ≤ p ∧ p < stop)

/-- The end `to` of the range a step addresses (the insertion point for
Insert). -/
def rangeEnd : Step → Nat
  | Step.insert pos _ => pos
  | Step.delete _ stop => stop
  | Step.replace _ stop _ => stop
  | Step.addMark _ stop _ => stop
  | Step.removeMark _ stop _ => stop

/-- The start `from` of the range a step addresses (the insertion point for
Insert). -/
def rangeStart : Step → Nat
  | Step.insert pos _ => pos
  | Step.delete start _ => start
  | Step.replace start _ _ => start
  | Step.addMark start _ _ => start
  | Step.removeMark start _ _ => start

/-! ## Schema Registry (spec sections 3 and 4.1) -/

/-- Modelled from the spec: what the Schema declares for one node type
(section 3): its attribute names, whether it bears inline text, and which node
types it may contain.  The registry is missing from the sources. -/
structure NodeSpec where
  attrs : List String
  text : Bool
  children : List String
deriving DecidableEq, Repr

/-- Modelled from the spec: the Schema (section 3), a mapping from node-type
name to its content model and attribute spec and from mark-type name to its
attribute spec, with the spec of the root node. -/
structure Schema where
  root : NodeSpec
  nodes : List (String × NodeSpec)
  marks : List (String × List String)
deriving Repr

/-- Every attribute given is one the attribute spec declares. -/
def attrsOk (declared : List String) (attrs : List (String × String)) : Bool :=
  attrs.all (fun kv => declared.contains kv.1)

/-- A mark is allowed when its type is declared and its attributes are. -/
def markOk (s : Schema) (m : Mark) : Bool :=
  match s.marks.lookup m.type with
  | some declared => attrsOk declared m.attrs
  | none => false

/-- Walk of the flattened tree with the stack of the nodes currently open:
text and marks must be allowed by the innermost open node, an opened child
must be allowed by its parent and declared, and every opened child must be
closed again. -/
def validateFrom (s : Schema) : List NodeSpec → List Item → Bool
  | [_], [] => true
  | _, [] => false
  | cur :: stack, Item.char _ marks :: rest =>
      cur.text && marks.all (markOk s) && validateFrom s (cur :: stack) rest
  | cur :: stack, Item.openNode ty attrs :: rest =>
      cur.children.contains ty &&
        (match s.nodes.lookup ty with
         | some spec => attrsOk spec.attrs attrs && validateFrom s (spec :: cur :: stack) rest
         | none => false)
  | _ :: parent :: stack, Item.closeNode :: rest => validateFrom s (parent :: stack) rest
  | _, _ => false

/-- Modelled from the spec: `validate(node) -> ok | SchemaViolation` of the
Schema Registry (section 4.1); `false` stands for SchemaViolation. -/
def validate (s : Schema) (t : Tree) : Bool :=
  validateFrom s [s.root] t

/-- A registry with the node and mark types that `hypertextSchema` adds
(HypertextEditor.js lines 12-67): the inline nodes `hyperlink` (href, title)
and `annotation` (id, author, timestamp), both with content `text*`, and the
mark `comment` (id, comment), under a text-bearing root. -/
def hypertextSchema : Schema where
  root := { attrs := [], text := true, children := ["hyperlink", "annotation"] }
  nodes :=
    [("hyperlink", { attrs := ["href", "title"], text := true, children := [] }),
     ("annotation", { attrs := ["id", "author", "timestamp"], text := true, children := [] })]
  marks := [("comment", ["id", "comment"])]

/-! ## Collaboration Coordinator (spec sections 3, 4.4 and 6) -/

/-- Modelled from the spec: the message `SubmitSteps{clientId, baseVersion,
steps[]}` (section 6).  The coordinator is missing from the sources. -/
structure Batch where
  clientId : String
  baseVersion : Nat
  steps : List Step
deriving DecidableEq, Repr

/-- Modelled from the spec: one entry of the VersionLog (section 3): an
accepted batch, as it was submitted (client id, base version, steps) and in the
final, possibly rebased form in which its steps were applied. -/
structure LogEntry where
  clientId : String
  baseVersion : Nat
  submitted : List Step
  steps : List Step
deriving DecidableEq, Repr

/-- Modelled from the spec: the coordinator state for one document (sections 3
and 4.4): the canonical tree, the version number and the append-only
VersionLog, one entry per accepted batch. -/
structure Coordinator where
  docId : String
  tree : Tree
  version : Nat
  log : List LogEntry
deriving DecidableEq, Repr

/-- Modelled from the spec: why a batch is refused: `Rejected{reason}`
(section 6) on a SchemaViolation (section 7), or as a duplicate of an accepted
batch (section 8, idempotence of acceptance). -/
inductive RejectReason where
  | schemaViolation
  | duplicate
deriving DecidableEq, Repr

/-- Modelled from the spec: the coordinator answers of section 6,
`Accepted{version, steps[]}` (broadcast to every client) and
`Rejected{reason}` (to the submitter only). -/
inductive Reply where
  | accepted (version : Nat) (steps : List Step)
  | rejected (reason : RejectReason)
deriving DecidableEq, Repr

/-- Modelled from the spec: a document at version 0 with an empty log. -/
def Coordinator.init (docId : String) (t : Tree) : Coordinator :=
  { docId := docId, tree := t, version := 0, log := [] }

/-- What identifies a batch for the idempotence of acceptance (section 8): its
clientId, base version and steps. -/
def Batch.key (b : Batch) : String × Nat × List Step :=
  (b.clientId, b.baseVersion, b.steps)

/-- The identification of the batch a log entry was accepted from. -/
def LogEntry.key (e : LogEntry) : String × Nat × List Step :=
  (e.clientId, e.baseVersion, e.submitted)

/-- Modelled from the spec: a submission is a resubmission of an
already-accepted batch when the log holds an entry with the same clientId,
base version and steps (section 8). -/
def isDuplicate (c : Coordinator) (b : Batch) : Bool :=
  c.log.any (fun e =>
    decide (e.clientId = b.clientId ∧ e.baseVersion = b.baseVersion ∧ e.submitted = b.steps))

/-- Modelled from the spec: the steps of every VersionLog entry between a base
version and the current version, in order (section 4.4). -/
def unseenSteps (c : Coordinator) (baseVersion : Nat) : List Step :=
  ((c.log.drop baseVersion).map (fun e => e.steps)).flatten

/-- Modelled from the spec: rebasing one Step (section 4.3 (c)): both of its
boundary positions are mapped through each intervening step. -/
def rebaseStep (bias : Bias) (unseen : List Step) : Step → Step
  | Step.insert pos content => Step.insert (mapThrough unseen pos bias) content
  | Step.delete start stop =>
      Step.delete (mapThrough unseen start bias) (mapThrough unseen stop bias)
  | Step.replace start stop content =>
      Step.replace (mapThrough unseen start bias) (mapThrough unseen stop bias) content
  | Step.addMark start stop mark =>
      Step.addMark (mapThrough unseen start bias) (mapThrough unseen stop bias) mark
  | Step.removeMark start stop markType =>
      Step.removeMark (mapThrough unseen start bias) (mapThrough unseen stop bias) markType

/-- Modelled from the spec: the steps of a submitted batch in the form in
which they are applied (section 4.4).  When the base version is stale (current
version > baseVersion) each step is rebased through every VersionLog entry
between the base version and the current version; otherwise the steps are
taken as submitted. -/
def finalSteps (bias : Bias) (c : Coordinator) (b : Batch) : List Step :=
  if c.version > b.baseVersion then
    b.steps.map (rebaseStep bias (unseenSteps c b.baseVersion))
  else b.steps

/-- Modelled from the spec: applying the steps of a batch in order, each
resulting tree validated against the Schema Registry; the first violation
fails the whole sequence. -/
def applyAll (validate : Tree → Bool) : Tree → List Step → Option Tree
  | t, [] => some t
  | t, s :: rest =>
      match apply validate t s with
      | some t' => applyAll validate t' rest
      | none => none

/-- Modelled from the spec: committing an accepted batch (section 4.4): the
canonical tree is replaced, the batch is appended to the VersionLog as one
entry and the version is bumped. -/
def Coordinator.commit (c : Coordinator) (b : Batch) (t : Tree) (steps : List Step) :
    Coordinator :=
  { c with
    tree := t
    version := c.version + 1
    log := c.log ++ [⟨b.clientId, b.baseVersion, b.steps, steps⟩] }

/-- Modelled from the spec: the accept operation on
`SubmitSteps(clientId, baseVersion, steps)` (section 4.4): map, apply,
validate, append to the VersionLog, bump the version.  A resubmitted batch is
rejected (section 8); on a schema violation the batch is rejected as a whole.
A rejection returns the state as it was. -/
def submit (validate : Tree → Bool) (bias : Bias) (c : Coordinator) (b : Batch) :
    Reply × Coordinator :=
  if isDuplicate c b then (Reply.rejected RejectReason.duplicate, c)
  else
    let steps := finalSteps bias c b
    match applyAll validate c.tree steps with
    | some t => (Reply.accepted (c.version + 1) steps, c.commit b t steps)
    | none => (Reply.rejected RejectReason.schemaViolation, c)

/-- Modelled from the spec: the coordinator serialises the batches of a
document in their arrival order (section 4.4); the result is the answer to
each batch, in that order, and the final state. -/
def run (validate : Tree → Bool) (bias : Bias) :
    Coordinator → List Batch → List Reply × Coordinator
  | c, [] => ([], c)
  | c, b :: rest =>
      let r := submit validate bias c b
      let rs := run validate bias r.2 rest
      (r.1 :: rs.1, rs.2)

/-- The version numbers carried by the Accepted answers, in order. -/
def acceptedVersions : List Reply → List Nat
  | [] => []
  | Reply.accepted v _ :: rest => v :: acceptedVersions rest
  | Reply.rejected _ :: rest => acceptedVersions rest

/-! ## Annotation/Selection Overlay (spec sections 3 and 4.5) -/

/-- Modelled from the spec: an Annotation (section 3): identifier, author,
timestamp, comment text and an anchor range of two positions, with the
`collapsed` flag of section 4.5. -/
structure Annotation where
  id : String
  author : String
  timestamp : String
  comment : String
  anchorFrom : Nat
  anchorTo : Nat
  collapsed : Bool
deriving DecidableEq, Repr

/-- Modelled from the spec: a Selection (section 3): client identifier plus
anchor and head positions. -/
structure Selection where
  clientId : String
  anchor : Nat
  head : Nat
deriving DecidableEq, Repr

/-- Modelled from the spec: the overlay of anchors tracked across tree
updates. -/
structure Overlay where
  annotations : List Annotation
  selections : List Selection
deriving DecidableEq, Repr

/-- Modelled from the spec: `on_steps_applied(overlay, steps) -> overlay'`
(section 4.5): every anchor and selection position is mapped through the
applied steps with `map`; an annotation whose mapped range has zero width is
flagged collapsed. -/
def on_steps_applied (bias : Bias) (o : Overlay) (steps : List Step) : Overlay :=
  { annotations := o.annotations.map (fun a =>
      { a with
        anchorFrom := mapThrough steps a.anchorFrom bias
        anchorTo := mapThrough steps a.anchorTo bias
        collapsed := mapThrough steps a.anchorFrom bias == mapThrough steps a.anchorTo bias })
    selections := o.selections.map (fun sel =>
      { sel with
        anchor := mapThrough steps sel.anchor bias
        head := mapThrough steps sel.head bias }) }

/-- The text an annotation covers in a tree. -/
def coveredText (t : Tree) (a : Annotation) : String :=
  textOf (slice t a.anchorFrom a.anchorTo)

/-- The steps a batch is made of, rewritten one after the other without
validation; used to name the tree that an individual step of a batch
produces. -/
def rewriteAll : Tree → List Step → Option Tree
  | t, [] => some t
  | t, s :: rest =>
      match rewrite t s with
      | some t' => rewriteAll t' rest
      | none => none

/-- The position is the end `to` of a non-empty range that the step deletes or
re-marks. -/
def atRangeEnd : Step → Nat → Bool
  | Step.insert _ _, _ => false
  | Step.delete start stop, p => decide (start < stop ∧ p = stop)
  | Step.replace start stop _, p => decide (start < stop ∧ p = stop)
  | Step.addMark start stop _, p => decide (start < stop ∧ p = stop)
  | Step.removeMark start stop _, p => decide (start < stop ∧ p = stop)

/-! ## The editor component (src/hypertext-editor/HypertextEditor.js) -/

/-- The `from` and `to` of an editor selection, as read by `addAnnotation`
(line 190) and `insertHyperlink` (line 171). -/
structure EditorSelection where
  fromPos : Nat
  toPos : Nat
deriving DecidableEq, Repr

/-- A transaction handed to `dispatchTransaction`: the steps it carries and
its `docChanged` flag, the one property the component reads (lines 114 and
120). -/
structure Transaction where
  steps : List Step
  docChanged : Bool
deriving DecidableEq, Repr

/-- The value of `sendableSteps(view.state)` as read at lines 141-143. -/
structure Sendable where
  version : Nat
  steps : List Step
  clientID : String
deriving DecidableEq, Repr

/-- The update `{ steps, version }` delivered to the listener registered with
`onCollaborativeUpdate` (line 154). -/
structure Update where
  steps : List Step
  version : Nat
deriving DecidableEq, Repr

/-- The functions of the imported ProseMirror packages that the component
calls on an editor state of type `σ`.  They are not part of the sources and
are taken as parameters: `view.state.apply(transaction)` (line 110),
`newState.selection` (line 125), `sendableSteps(view.state)` (line 138),
`editorView.state.applySteps(steps, version)` (line 155),
`view.dom.innerHTML` (line 115) and
`editorView.state.tr.replaceSelectionWith(node)` (line 202). -/
structure ProseMirror (σ : Type) where
  apply : σ → Transaction → σ
  selection : σ → EditorSelection
  sendableSteps : σ → Option Sendable
  applySteps : σ → List Step → Nat → σ
  innerHTML : σ → String
  replaceSelectionWith : σ → List Item → Transaction

/-- The annotation record built by `addAnnotation` (lines 185-191). -/
structure AnnotationRecord where
  id : String
  author : String
  timestamp : String
  comment : String
  position : Nat
deriving DecidableEq, Repr

/-- The React state of the `HypertextEditor` component that the embedded
handlers read or write (lines 76-81): the editor view with its state, the
annotations list, the current selection and the annotation panel flag. -/
structure HypertextEditor (σ : Type) where
  editorView : Option σ
  annotations : List AnnotationRecord
  currentSelection : Option EditorSelection
  showAnnotationPanel : Bool

/-- The object exposed as `window.hypertextAPI`, reduced to whether it has the
two methods the component calls on it: `sendCollaborativeUpdate` (line 140)
and `onCollaborativeUpdate` (line 160). -/
structure HypertextAPI where
  sendCollaborativeUpdate : Bool
  onCollaborativeUpdate : Bool
deriving DecidableEq, Repr

/-- The object that `src/src/preload/preload.js` exposes as `hypertextAPI`
(lines 27-41).  Its methods are createDocument, openDocument, saveDocument,
connectToCollaboration, disconnectFromCollaboration, onCollaborativeUpdate,
extractLinks and validateLinks: there is no `sendCollaborativeUpdate`. -/
def preloadHypertextAPI : HypertextAPI :=
  { sendCollaborativeUpdate := false, onCollaborativeUpdate := true }

/-- The exception raised when a handler calls a method that the object does
not have. -/
inductive JsError where
  | typeError (callee : String)
deriving DecidableEq, Repr

/-- The props and globals the handlers test: `isCollaborative`, whether an
`onChange` callback was passed, and `window.hypertextAPI`, which is absent or
an object. -/
structure Env where
  isCollaborative : Bool
  onChange : Bool
  hypertextAPI : Option HypertextAPI
deriving DecidableEq, Repr

/-- The calls the handlers make to the outside: `onChange(content)` (line 116)
and `window.hypertextAPI.sendCollaborativeUpdate({version, steps, clientID})`
(lines 140-144). -/
inductive Effect where
  | onChange (content : String)
  | sendCollaborativeUpdate (version : Nat) (steps : List Step) (clientID : String)
deriving DecidableEq, Repr

/-- The function `handleCollaborativeUpdate` (lines 136-146): when there are
sendable steps and `window.hypertextAPI` exists, its method
`sendCollaborativeUpdate` is called with the version, steps and client id of
the sendable; the call raises a TypeError when the object has no such
method. -/
def handleCollaborativeUpdate {σ : Type} (pm : ProseMirror σ) (env : Env) (view : σ) :
    Except JsError (List Effect) :=
  match pm.sendableSteps view with
  | some sendable =>
      match env.hypertextAPI with
      | some api =>
          if api.sendCollaborativeUpdate then
            Except.ok
              [Effect.sendCollaborativeUpdate sendable.version sendable.steps sendable.clientID]
          else Except.error (JsError.typeError "window.hypertextAPI.sendCollaborativeUpdate")
      | none => Except.ok []
  | none => Except.ok []

/-- The function `dispatchTransaction` (lines 109-126): the transaction is
applied to the view state, the parent is notified of a changed document, the
collaborative update is sent, and the current selection is set to the
selection of the new state.  When sending raises, the selection is not set and
the exception leaves the function.  The annotations list is not touched.  The
function belongs to the view, so a view exists whenever it runs; without one
the state is left as it is.  The result is the new component state, the calls
made and the exception raised, if any. -/
def dispatchTransaction {σ : Type} (pm : ProseMirror σ) (env : Env) (ed : HypertextEditor σ)
    (transaction : Transaction) : HypertextEditor σ × List Effect × Option JsError :=
  match ed.editorView with
  | none => (ed, [], none)
  | some view =>
      let newState := pm.apply view transaction
      let notified :=
        if transaction.docChanged && env.onChange then [Effect.onChange (pm.innerHTML newState)]
        else []
      let sent :=
        if env.isCollaborative && transaction.docChanged then
          handleCollaborativeUpdate pm env newState
        else Except.ok []
      match sent with
      | Except.ok calls =>
          ({ ed with editorView := some newState,
                     currentSelection := some (pm.selection newState) },
            notified ++ calls, none)
      | Except.error e => ({ ed with editorView := some newState }, notified, some e)

/-- The listener `handleCollabUpdate` (lines 151-158): when the editor view
exists the remote steps are applied to its state, otherwise the update is
left aside. -/
def handleCollabUpdate {σ : Type} (pm : ProseMirror σ) (editorView : Option σ)
    (update : Update) : Option σ :=
  match editorView with
  | some view => some (pm.applySteps view update.steps update.version)
  | none => none

/-- Whether the effect of lines 148-166 has registered the update listener:
only when `window.hypertextAPI` exists and the editor is collaborative, and the
object has the method `onCollaborativeUpdate` that registers it. -/
def listenerRegistered (env : Env) : Bool :=
  match env.hypertextAPI with
  | some api => env.isCollaborative && api.onCollaborativeUpdate
  | none => false

/-- The effect of an update arriving at the component (lines 148-166): the
registered listener `handleCollabUpdate` runs on the editor view. -/
def onCollaborativeUpdate {σ : Type} (pm : ProseMirror σ) (env : Env) (ed : HypertextEditor σ)
    (update : Update) : HypertextEditor σ :=
  if listenerRegistered env then
    { ed with editorView := handleCollabUpdate pm ed.editorView update }
  else ed

/-- The annotation node created at lines 193-200, in the flattened
addressing: the opening boundary with the attributes id, author and timestamp,
the text, and the closing boundary. -/
def annotationNode (id author timestamp text : String) : List Item :=
  [Item.openNode "annotation" [("id", id), ("author", author), ("timestamp", timestamp)]] ++
    plainText text ++ [Item.closeNode]

/-- The function `addAnnotation` (lines 182-207), with the two clock readings
`Date.now().toString()` and `new Date().toISOString()` taken as arguments.
Without an editor view or a current selection nothing happens; otherwise the
record is built with `position` set to the start of the selection and the
author set to the constant 'Current User' (line 187, marked TODO), the
selection is replaced by the annotation node, and the record is appended to
the annotations list.  When dispatching the transaction raises, the statements
after it are not reached. -/
def addAnnotation {σ : Type} (pm : ProseMirror σ) (env : Env) (now iso : String)
    (ed : HypertextEditor σ) (text comment : String) :
    HypertextEditor σ × List Effect × Option JsError :=
  match ed.editorView, ed.currentSelection with
  | some view, some sel =>
      let annotation : AnnotationRecord :=
        { id := now, author := "Current User", timestamp := iso, comment := comment,
          position := sel.fromPos }
      let node := annotationNode annotation.id annotation.author annotation.timestamp text
      let tr := pm.replaceSelectionWith view node
      let r := dispatchTransaction pm env ed tr
      match r.2.2 with
      | none =>
          ({ r.1 with annotations := ed.annotations ++ [ annotation],
                      showAnnotationPanel := false },
            r.2.1, none)
      | some e => (r.1, r.2.1, some e)
  | _, _ => (ed, [], none)

/-! ## The step engine behind the component, after the spec -/

/-- Modelled from the spec: a client applies the broadcast steps to its local
tree, in order (section 2); a step that does not address the local tree leaves
it as it is.  The client-side step application is furnished by the ProseMirror
packages, which are missing from the sources. -/
def applyLocal (t : Tree) (steps : List Step) : Tree :=
  steps.foldl (fun acc s => (rewrite acc s).getD acc) t

/-- Modelled from the spec: the editor state of a client (sections 2 and 3):
the tree at the last version it has seen, its selection, that version, its
pending (unacknowledged) steps and its client identifier.  The editor state
type is missing from the sources. -/
structure EditorState where
  confirmed : Tree
  selection : EditorSelection
  version : Nat
  unconfirmed : List Step
  clientID : String
deriving DecidableEq, Repr

/-- Modelled from the spec: the local optimistic copy of a client (section 2):
the tree at the last version it has seen with its pending steps applied. -/
def EditorState.doc (st : EditorState) : Tree :=
  applyLocal st.confirmed st.unconfirmed

/-- Modelled from the spec: the ProseMirror functions the component calls,
which are missing from the sources.  A transaction edits the local optimistic
copy and its steps become pending (section 2); the selection is mapped through
the steps (section 4.3 (b)); the pending steps are submitted with the believed
base version (section 6, SubmitSteps).  Broadcast steps are applied to the tree
the client has seen, in order, and the version is set to the broadcast one;
the client then re-maps its still-pending steps through the broadcast steps
(sections 2 and 4.3 (a)), with the bias the coordinator rebases with.  The
`Accepted` message names no client (section 6) and the update handed to the
component has steps and version only (line 154), so the client takes a
broadcast whose steps are its pending steps, in the form it has re-mapped them
to, for the acknowledgement of its batch: the steps are then no longer pending.
`applySteps` leaves the selection as it is.  The markup read from the view is
not modelled: the text content stands for it. -/
def engineWith (bias : Bias) : ProseMirror EditorState where
  apply st tr :=
    { st with
      selection :=
        ⟨mapThrough tr.steps st.selection.fromPos Bias.right,
         mapThrough tr.steps st.selection.toPos Bias.right⟩
      unconfirmed := st.unconfirmed ++ tr.steps }
  selection st := st.selection
  sendableSteps st :=
    if st.unconfirmed.isEmpty then none else some ⟨st.version, st.unconfirmed, st.clientID⟩
  applySteps st steps version :=
    { st with
      confirmed := applyLocal st.confirmed steps
      version := version
      unconfirmed :=
        if steps = st.unconfirmed then [] else st.unconfirmed.map (rebaseStep bias steps) }
  innerHTML st := textOf st.doc
  replaceSelectionWith st node :=
    ⟨[Step.replace st.selection.fromPos st.selection.toPos node], true⟩

/-- Modelled from the spec: the functions of a client of a coordinator that
rebases with right bias. -/
def engine : ProseMirror EditorState := engineWith Bias.right

/-- Modelled from the spec: a newly joining client starts from
`Snapshot{version, tree}` (section 6), with nothing pending. -/
def snapshot (clientID : String) (c : Coordinator) : EditorState :=
  { confirmed := c.tree, selection := ⟨0, 0⟩, version := c.version, unconfirmed := [],
    clientID := clientID }

/-- Modelled from the spec: a client that has joined at the state `c` of the
coordinator and has edited its local optimistic copy by the given steps, which
it submits as one batch against the version of `c` (section 2). -/
def editingClient (bias : Bias) (clientID : String) (c : Coordinator) (steps : List Step) :
    EditorState :=
  (engineWith bias).apply (snapshot clientID c) ⟨steps, true⟩

/-- Whether an answer of the coordinator is `Accepted`. -/
def Reply.isAccepted : Reply → Bool
  | Reply.accepted _ _ => true
  | Reply.rejected _ => false

/-- Whether the coordinator, serving the arrivals in order from the state `c`,
accepts the batch `b` at one of its arrivals. -/
def acceptedIn (validate : Tree → Bool) (bias : Bias) :
    Coordinator → List Batch → Batch → Bool
  | _, [], _ => false
  | c, x :: rest, b =>
      (decide (x = b) && (submit validate bias c x).1.isAccepted) ||
        acceptedIn validate bias (submit validate bias c x).2 rest b

/-- Modelled from the spec: the `Accepted{version, steps[]}` answers of a run
are broadcast to every client (section 6); `Rejected` goes to the submitter
only and is no update. -/
def broadcasts : List Reply → List Update
  | [] => []
  | Reply.accepted v steps :: rest => ⟨steps, v⟩ :: broadcasts rest
  | Reply.rejected _ :: rest => broadcasts rest

/-- A client whose listener receives a sequence of updates in order. -/
def receiveAll {σ : Type} (pm : ProseMirror σ) (editorView : Option σ)
    (updates : List Update) : Option σ :=
  updates.foldl (handleCollabUpdate pm) editorView

/-! ## Sequences of events at the component -/

/-- An event at the component: a transaction dispatched on the view (a local
edit) or an update delivered on the collaboration channel. -/
inductive EditorEvent where
  | dispatched (transaction : Transaction)
  | delivered (update : Update)
deriving DecidableEq, Repr

/-- The component handling one event; an exception raised by the handler ends
that handler only.  The result is the new state and the calls made. -/
def handleEvent {σ : Type} (pm : ProseMirror σ) (env : Env) (ed : HypertextEditor σ) :
    EditorEvent → HypertextEditor σ × List Effect
  | EditorEvent.dispatched transaction =>
      ((dispatchTransaction pm env ed transaction).1,
       (dispatchTransaction pm env ed transaction).2.1)
  | EditorEvent.delivered update => (onCollaborativeUpdate pm env ed update, [])

/-- The component handling a sequence of events in order, with all the calls
made. -/
def handleEvents {σ : Type} (pm : ProseMirror σ) (env : Env) :
    HypertextEditor σ → List EditorEvent → HypertextEditor σ × List Effect
  | ed, [] => (ed, [])
  | ed, ev :: rest =>
      ((handleEvents pm env (handleEvent pm env ed ev).1 rest).1,
       (handleEvent pm env ed ev).2 ++ (handleEvents pm env (handleEvent pm env ed ev).1 rest).2)

/-- The submissions among the calls made: the calls of
`sendCollaborativeUpdate`. -/
def submissions : List Effect → List Effect
  | [] => []
  | Effect.sendCollaborativeUpdate v steps id :: rest =>
      Effect.sendCollaborativeUpdate v steps id :: submissions rest
  | Effect.onChange _ :: rest => submissions rest

/-! ## Editor creation (HypertextEditor.js lines 83-104) -/

/-- A plugin of the editor state: one of those that `exampleSetup` returns
(line 88), of type `α`, or the collaboration plugin `collab({ version })`
(line 93). -/
inductive Plugin (α : Type) where
  | setup (p : α)
  | collab (version : Nat)
deriving DecidableEq, Repr

/-- The plugins array of lines 87-94: the plugins of `exampleSetup`, and after
them `collab({ version: 0 })` when the editor is collaborative. -/
def editorPlugins {α : Type} (exampleSetup : List α) (isCollaborative : Bool) :
    List (Plugin α) :=
  exampleSetup.map Plugin.setup ++ (if isCollaborative then [Plugin.collab 0] else [])

/-- The `document` prop, reduced to its `content` (line 98), which may be
missing. -/
structure DocumentProp where
  content : Option String
deriving DecidableEq, Repr

/-- The test `document?.content` of line 98: the content when the document
exists and its content is a non-empty string. -/
def truthyContent (document : Option DocumentProp) : Option String :=
  match document with
  | some d =>
      (match d.content with
       | some c => if c = "" then none else some c
       | none => none)
  | none => none

/-- The argument of `EditorState.create` (lines 97-104): the document and the
plugins. -/
structure CreatedState (α δ : Type) where
  doc : δ
  plugins : List (Plugin α)

/-- The editor-creation effect (lines 83-104), with the markup parser and
`hypertextSchema.nodes.doc.createAndFill()` taken as parameters: nothing is
created while `editorRef.current` is missing; otherwise the document is parsed
from the content, or created empty, and the plugins are installed. -/
def createEditorState {α δ : Type} (parse : String → δ) (createAndFill : δ)
    (exampleSetup : List α) (mounted isCollaborative : Bool)
    (document : Option DocumentProp) : Option (CreatedState α δ) :=
  if mounted then
    some
      { doc :=
          (match truthyContent document with
           | some c => parse c
           | none => createAndFill)
        plugins := editorPlugins exampleSetup isCollaborative }
  else none

/-- The versions of the collaboration plugins installed in a state: the
version each `collab` plugin was configured with, which is the version its
state starts at. -/
def collabVersions {α δ : Type} (st : CreatedState α δ) : List Nat :=
  st.plugins.filterMap (fun p =>
    match p with
    | Plugin.collab v => some v
    | Plugin.setup _ => none)

/-! ## The DOM mapping of the schema (HypertextEditor.js lines 12-67) -/

/-- A DOM element as the parse and serialise rules see it: its tag name and
its attributes. -/
structure DomElement where
  tag : String
  attributes : List (String × String)
deriving DecidableEq, Repr

/-- The DOM method `getAttribute`: the value of the attribute, or null (here
`none`) when the element has no such attribute. -/
def DomElement.getAttribute (el : DomElement) (name : String) : Option String :=
  el.attributes.lookup name

/-- The element that ProseMirror creates from a DOM output spec
`[tag, attrs, 0]`: it has the given tag, and every attribute whose value is
not null is set on it.  The serialiser is part of the ProseMirror packages,
which are not in the sources. -/
def renderSpec (tag : String) (attrs : List (String × Option String)) : DomElement :=
  { tag := tag
    attributes := attrs.filterMap (fun kv => kv.2.map (fun v => (kv.1, v))) }

/-- The tag selector of a parseDOM rule, of the forms used in the schema:
a tag name with an optional required attribute (`a[href]`) or an optional
class (`span.comment`). -/
structure TagSelector where
  tag : String
  attr : Option String
  className : Option String
deriving DecidableEq, Repr

/-- The class names of an element: its class attribute split at blanks. -/
def DomElement.classList (el : DomElement) : List String :=
  match el.getAttribute "class" with
  | some v => (v.toList.splitOn ' ').map String.mk
  | none => []

/-- An element matches a tag selector when it has the tag name, the required
attribute if one is given, and the class if one is given. -/
def matchesSelector (el : DomElement) (sel : TagSelector) : Bool :=
  el.tag == sel.tag &&
  (match sel.attr with
   | some a => (el.getAttribute a).isSome
   | none => true) &&
  (match sel.className with
   | some c => el.classList.contains c
   | none => true)

/-- The attributes of a hyperlink node (line 15); a value is a string or
null. -/
structure HyperlinkAttrs where
  href : Option String
  title : Option String
deriving DecidableEq, Repr

/-- The selector `a[href]` of the hyperlink parse rule (line 19). -/
def hyperlinkTag : TagSelector := ⟨"a", some "href", none⟩

/-- The `getAttrs` of the hyperlink parse rule (lines 19-21). -/
def hyperlinkGetAttrs (dom : DomElement) : HyperlinkAttrs :=
  { href := dom.getAttribute "href", title := dom.getAttribute "title" }

/-- The `toDOM` of the hyperlink node (lines 22-24): `['a', node.attrs, 0]`. -/
def hyperlinkToDOM (attrs : HyperlinkAttrs) : DomElement :=
  renderSpec "a" [("href", attrs.href), ("title", attrs.title)]

/-- The attributes of an annotation node (line 27). -/
structure AnnotationAttrs where
  id : Option String
  author : Option String
  timestamp : Option String
deriving DecidableEq, Repr

/-- The selector `span.annotation` of the annotation parse rule (line 31). -/
def annotationTag : TagSelector := ⟨"span", none, some "annotation"⟩

/-- The `getAttrs` of the annotation parse rule (lines 31-37). -/
def annotationGetAttrs (dom : DomElement) : AnnotationAttrs :=
  { id := dom.getAttribute "data-id"
    author := dom.getAttribute "data-author"
    timestamp := dom.getAttribute "data-timestamp" }

/-- The `toDOM` of the annotation node (lines 38-45). -/
def annotationToDOM (attrs : AnnotationAttrs) : DomElement :=
  renderSpec "span"
    [("class", some "annotation"), ("data-id", attrs.id), ("data-author", attrs.author),
     ("data-timestamp", attrs.timestamp)]

/-- The attributes of a comment mark (line 50). -/
structure CommentAttrs where
  id : Option String
  comment : Option String
deriving DecidableEq, Repr

/-- The selector `span.comment` of the comment parse rule (line 51). -/
def commentTag : TagSelector := ⟨"span", none, some "comment"⟩

/-- The `getAttrs` of the comment parse rule (lines 51-56). -/
def commentGetAttrs (dom : DomElement) : CommentAttrs :=
  { id := dom.getAttribute "data-id", comment := dom.getAttribute "data-comment" }

/-- The `toDOM` of the comment mark (lines 57-64). -/
def commentToDOM (attrs : CommentAttrs) : DomElement :=
  renderSpec "span"
    [("class", some "comment"), ("data-id", attrs.id), ("data-comment", attrs.comment),
     ("title", attrs.comment)]

/-! ## TeX preview (src/export-engine/ExportPanel.js lines 207-226) -/

/-- The text after the first '>' of a text, if it has one: where a match of
`<[^>]*>` that starts just before the text ends. -/
def afterClose : List Char → Option (List Char)
  | [] => none
  | c :: rest => if c = '>' then some rest else afterClose rest

/-- The replacement `replace(/<[^>]*>/g, '')` of line 220 on the characters of
a text: scanning from the left, a '<' that has a '>' after it starts a match
that runs up to the first such '>' and is removed; any other character is
kept. -/
def removeTags : List Char → List Char
  | [] => []
  | c :: rest =>
      if c = '<' then
        match h : afterClose rest with
        | some r => removeTags r
        | none => c :: removeTags rest
      else c :: removeTags rest
termination_by l => l.length
decreasing_by
  all_goals simp_wf
  · have shorter : ∀ (l q : List Char), afterClose l = some q → q.length < l.length := by
      intro l
      induction l with
      | nil => intro q hq; simp [afterClose] at hq
      | cons d l ih =>
        intro q hq
        simp only [afterClose] at hq
        split at hq
        · injection hq with hq
          subst hq
          simp
        · have := ih q hq
          simp only [List.length_cons]
          omega
    have := shorter rest r h
    omega

/-- The replacement of line 220 on a string. -/
def stripTags (s : String) : String :=
  String.mk (removeTags s.toList)

/-- The conversion of the content of one item (lines 212-220):
`item.content || ''`, then the six replacements of headings, paragraphs,
strong, em and links (lines 214-219), then the removal of what tags remain.
The six replacements rewrite a string into a string with the regular
expression engine of the platform and are taken as a parameter. -/
def texContent (structural : String → String) (content : Option String) : String :=
  stripTags (structural (content.getD ""))

/-- The text appended for one item (line 222): `texContent + '\n\n'`. -/
def appendedTex (structural : String → String) (content : Option String) : String :=
  texContent structural content ++ "\n\n"

/-- Some '<' of the text has a '>' after it: the text contains a match of
`<[^>]*>`. -/
def containsTag : List Char → Bool
  | [] => false
  | c :: rest => (c == '<' && rest.contains '>') || containsTag rest

/-! ## String methods of the platform -/

/-- The characters of the first text begin with those of the second. -/
def startsWithChars : List Char → List Char → Bool
  | _, [] => true
  | [], _ :: _ => false
  | c :: s, d :: p => c == d && startsWithChars s p

/-- The string method `startsWith`.  JavaScript compares UTF-16 code units;
on well-formed strings that is the comparison of characters. -/
def startsWith (s p : String) : Bool :=
  startsWithChars s.toList p.toList

/-- The characters of the second text occur in the first as a contiguous
run. -/
def includesChars : List Char → List Char → Bool
  | [], q => startsWithChars [] q
  | c :: s, q => startsWithChars (c :: s) q || includesChars s q

/-- The string method `includes`. -/
def includes (s q : String) : Bool :=
  includesChars s.toList q.toList

/-- The characters that the string method `trim` removes: the white space and
line terminator code points of the language. -/
def jsWhiteSpace (c : Char) : Bool :=
  [0x9, 0xA, 0xB, 0xC, 0xD, 0x20, 0xA0, 0x1680, 0x2000, 0x2001, 0x2002, 0x2003, 0x2004,
   0x2005, 0x2006, 0x2007, 0x2008, 0x2009, 0x200A, 0x2028, 0x2029, 0x202F, 0x205F, 0x3000,
   0xFEFF].contains c.toNat

/-- The string method `trim` on the characters of a text. -/
def trimChars (l : List Char) : List Char :=
  ((l.dropWhile jsWhiteSpace).reverse.dropWhile jsWhiteSpace).reverse

/-- The string method `trim`. -/
def trim (s : String) : String :=
  String.mk (trimChars s.toList)

/-! ## The browser (src/client/ClientBrowser.js) -/

/-- The React state of `ClientBrowser` that `loadPage` and `navigateBack` read
or write (lines 5-8, 15-16).  The current URL is a string, or undefined after
a read past the end of the history. -/
structure Browser where
  currentUrl : Option String
  pageHistory : List String
  historyIndex : Nat
  isLoading : Bool
  pageContent : String
  pageTitle : String
deriving DecidableEq, Repr

/-- The state the component starts in (lines 5-8, 15-16). -/
def Browser.initial : Browser :=
  { currentUrl := some "https://info.cern.ch", pageHistory := ["https://info.cern.ch"],
    historyIndex := 0, isLoading := false, pageContent := "", pageTitle := "" }

/-- The normalisation of the URL at the head of `loadPage` (lines 25-27). -/
def normalizeUrl (url : String) : String :=
  if !startsWith url "http://" && !startsWith url "https://" then "https://" ++ url else url

/-- The mock title chosen for a URL (lines 41-42, 60-61, 82-83). -/
def mockTitle (url : String) : String :=
  if includes url "info.cern.ch" then "CERN - World Wide Web"
  else if includes url "w3.org" then "World Wide Web Consortium (W3C)"
  else "Web Page"

/-- The part of `loadPage` that runs at the call (lines 25-29): the loading
flag is set. -/
def loadPageBegin (st : Browser) : Browser :=
  { st with isLoading := true }

/-- The part of `loadPage` that runs when the simulated load has finished
(lines 37-105 and 112), on the state `st` the component is in by then.  The
function is a closure of the render it was called in: `pageHistory` and
`historyIndex` at lines 102-105 are the values of that render, here
`captured`.  The mock markup of lines 43-94 is a function of the title and the
URL and is taken as a parameter.  Nothing in the try block raises. -/
def loadPageEnd (mockContent : String → String → String) (captured st : Browser)
    (url : String) : Browser :=
  let url := normalizeUrl url
  let newHistory := captured.pageHistory.take (captured.historyIndex + 1) ++ [url]
  { st with
    pageContent := mockContent (mockTitle url) url
    pageTitle := mockTitle url
    currentUrl := some url
    pageHistory := newHistory
    historyIndex := newHistory.length - 1
    isLoading := false }

/-- A call of `loadPage` that runs to completion with nothing else happening
in between. -/
def loadPage (mockContent : String → String → String) (st : Browser) (url : String) :
    Browser :=
  loadPageEnd mockContent st (loadPageBegin st) url

/-- The handler `navigateBack` (lines 116-124) up to the point where the load
it starts is pending: with a positive index, the index is lowered by one, the
current URL is set to the history entry there and `loadPage` is called on it.
The result is the state and the URL being loaded, if any.  A read past the end
of the history gives undefined, on which `loadPage` raises at its first
line. -/
def navigateBackClick (st : Browser) : Browser × Option String :=
  if st.historyIndex > 0 then
    match st.pageHistory[st.historyIndex - 1]? with
    | some url =>
        (loadPageBegin { st with historyIndex := st.historyIndex - 1, currentUrl := some url },
         some url)
    | none => ({ st with historyIndex := st.historyIndex - 1, currentUrl := none }, none)
  else (st, none)

/-- The handler `navigateBack` and the page load it triggers, run to
completion with nothing else happening in between.  The load is the closure of
the render in which the button was clicked, so it works on the history and the
index of the state before the click. -/
def navigateBack (mockContent : String → String → String) (st : Browser) : Browser :=
  match (navigateBackClick st).2 with
  | some url => loadPageEnd mockContent st (navigateBackClick st).1 url
  | none => (navigateBackClick st).1

/-! ## The export panel (src/export-engine/ExportPanel.js) -/

/-- A page of the crawl results, with the fields the mock crawl of
`KnowbotPanel.js` (lines 90-117) gives it. -/
structure CrawlPage where
  url : String
  title : String
  content : String
  links : List String
  depth : Nat
  size : Nat
  timestamp : String
deriving DecidableEq, Repr

/-- The `document` property of the export panel as far as `startExport` reads
it (lines 84-86).  A field is `none` when it is null or undefined. -/
structure OpenDocument where
  title : Option String
  content : Option String
  path : Option String
deriving DecidableEq, Repr

/-- An element of `contentToExport` (lines 79-87). -/
structure ExportItem where
  title : String
  content : Option String
  url : Option String
deriving DecidableEq, Repr

/-- The value of `exportProgress` (line 25). -/
structure ExportProgress where
  current : Nat
  total : Nat
  stage : String
deriving DecidableEq, Repr

/-- An entry of `exportHistory` (lines 98-105), without the identifier and the
time stamp that come from the clock. -/
structure ExportRecord where
  format : String
  filename : String
  size : String
  path : String
deriving DecidableEq, Repr

/-- The React state of `ExportPanel` that `startExport` and
`togglePageSelection` read or write (lines 5, 24-27). -/
structure ExportPanel where
  exportFormat : String
  exportStatus : String
  exportProgress : ExportProgress
  exportHistory : List ExportRecord
  selectedPages : List CrawlPage
deriving DecidableEq, Repr

/-- The state the panel starts in (lines 5, 24-27). -/
def ExportPanel.initial : ExportPanel :=
  { exportFormat := "pdf", exportStatus := "idle", exportProgress := ⟨0, 0, ""⟩,
    exportHistory := [], selectedPages := [] }

/-- What `startExport` does to the world outside the state of the panel before
it first waits: the alert of line 71, the call of a method of
`window.exportAPI` on the content and the options (lines 91-94), the start of
`mockExport` (line 108), or the report of line 111. -/
inductive ExportEffect where
  | alert (message : String)
  | callExportAPI (method : String) (content : List ExportItem)
  | mockExport
  | consoleError
deriving DecidableEq, Repr

/-- The values of the three format radio buttons (lines 326-355); the format
is 'pdf' at the start (line 5) and is set from these buttons only. -/
def exportFormats : List String := ["pdf", "tex", "html"]

/-- The names of the properties that `src/src/preload/preload.js` exposes on
`window.exportAPI` (lines 62-77). -/
def preloadExportAPI : List String :=
  ["exportToPdf", "exportToTex", "exportToHtml", "onExportProgress", "onExportComplete",
   "onExportError"]

/-- The name of the method that line 91 looks up:
`exportTo` followed by `exportFormat.charAt(0).toUpperCase() + exportFormat.slice(1)`.
The string method `toUpperCase` is taken as a parameter.  `charAt` and `slice`
count UTF-16 code units, which are the characters of a string over the Basic
Multilingual Plane. -/
def exportMethod (toUpperCase : String → String) (exportFormat : String) : String :=
  "exportTo" ++ (toUpperCase (String.mk (exportFormat.toList.take 1)) ++
    String.mk (exportFormat.toList.drop 1))

/-- The expression `document.title || 'Document'` of line 84: the default
stands in for a title that is null, undefined or empty. -/
def titleOrDefault : Option String → String
  | some t => if t = "" then "Document" else t
  | none => "Document"

/-- The value of `contentToExport` (lines 79-87): the selected pages reduced to
title, content and url when there are any, otherwise the one open document.
With neither, the read of `document.title` raises: the value is `none`. -/
def contentToExport (document : Option OpenDocument) (selectedPages : List CrawlPage) :
    Option (List ExportItem) :=
  if selectedPages.length > 0 then
    some (selectedPages.map (fun page =>
      { title := page.title, content := some page.content, url := some page.url }))
  else
    match document with
    | some d =>
        some [{ title := titleOrDefault d.title, content := d.content, url := d.path }]
    | none => none

/-- The handler `startExport` (lines 69-113) up to the point where it first
waits: the guard of lines 70-73, the status and progress updates of lines
75-76, the content of lines 79-87, and then either the call of the method of
`window.exportAPI` (line 91) or the start of `mockExport` (line 108).
`exportAPI` is the list of the method names of `window.exportAPI`, or `none`
when the object does not exist; calling a method that the object does not have
raises, which the handler catches (lines 110-112).  The result is the state
and the effects. -/
def startExport (toUpperCase : String → String) (document : Option OpenDocument)
    (exportAPI : Option (List String)) (st : ExportPanel) : ExportPanel × List ExportEffect :=
  if document.isNone && st.selectedPages.length == 0 then
    (st, [ExportEffect.alert
      "No content to export. Please open a document or select pages from crawl results."])
  else
    let st1 : ExportPanel :=
      { st with
        exportStatus := "processing"
        exportProgress := ⟨0, 100, "Preparing export..."⟩ }
    match contentToExport document st.selectedPages with
    | none => ({ st1 with exportStatus := "error" }, [ExportEffect.consoleError])
    | some content =>
        match exportAPI with
        | some methods =>
            if methods.contains (exportMethod toUpperCase st.exportFormat) then
              (st1, [ExportEffect.callExportAPI (exportMethod toUpperCase st.exportFormat) content])
            else ({ st1 with exportStatus := "error" }, [ExportEffect.consoleError])
        | none => (st1, [ExportEffect.mockExport])

/-- The update of `selectedPages` in `togglePageSelection` (lines 290-299). -/
def togglePageSelection (page : CrawlPage) (prev : List CrawlPage) : List CrawlPage :=
  if prev.any (fun p => p.url == page.url) then prev.filter (fun p => p.url != page.url)
  else prev ++ [page]

/-- The array `sizes` of `formatBytes` (line 155 of `ExportPanel.js`, line 62
of `KnowbotPanel.js`). -/
def sizes : List String := ["Bytes", "KB", "MB", "GB"]

/-- The function `formatBytes` of `ExportPanel.js` (lines 152-158) on a
non-negative integer.  The two floating-point expressions are taken as
parameters: `floorLog bytes` is `Math.floor(Math.log(bytes) / Math.log(k))`
and `number bytes i` is the text of
`parseFloat((bytes / Math.pow(k, i)).toFixed(2))`.  An index past the end of
`sizes` reads undefined, which the concatenation turns into the text
'undefined'. -/
def ExportPanel.formatBytes (floorLog : Nat → Nat) (number : Nat → Nat → String)
    (bytes : Nat) : String :=
  if bytes = 0 then "0 Bytes"
  else
    let i := floorLog bytes
    number bytes i ++ " " ++ (sizes[i]?).getD "undefined"

/-! ## The knowbot panel (src/knowbot/KnowbotPanel.js) -/

/-- The React state of `KnowbotPanel` that `performSearch` reads or writes
(lines 8-10, 22). -/
structure KnowbotPanel where
  crawlResults : List CrawlPage
  searchQuery : String
  searchResults : List CrawlPage
  crawlLog : List String
deriving DecidableEq, Repr

/-- The function `formatBytes` of `KnowbotPanel.js` (lines 59-65), with the
same two floating-point expressions as parameters. -/
def KnowbotPanel.formatBytes (floorLog : Nat → Nat) (number : Nat → Nat → String)
    (bytes : Nat) : String :=
  if bytes = 0 then "0 Bytes"
  else
    let i := floorLog bytes
    number bytes i ++ " " ++ (sizes[i]?).getD "undefined"

/-- The test of the mock search on one page (lines 160-161).  The string
method `toLowerCase` is taken as a parameter. -/
def matchesQuery (toLowerCase : String → String) (searchQuery : String) (page : CrawlPage) :
    Bool :=
  includes (toLowerCase page.title) (toLowerCase searchQuery) ||
    includes (toLowerCase page.content) (toLowerCase searchQuery)

/-- The handler `performSearch` (lines 150-171).  `knowbotSearch` is
`window.knowbotAPI.search` with the limit of line 156, which gives the results
or fails with a message, or `none` when `window.knowbotAPI` does not exist. -/
def performSearch (toLowerCase : String → String)
    (knowbotSearch : Option (String → Except String (List CrawlPage))) (st : KnowbotPanel) :
    KnowbotPanel :=
  if trim st.searchQuery = "" then st
  else
    let found : Except String (List CrawlPage) :=
      match knowbotSearch with
      | some search => search st.searchQuery
      | none => .ok (st.crawlResults.filter (matchesQuery toLowerCase st.searchQuery))
    match found with
    | .ok results =>
        { st with
          searchResults := results
          crawlLog := st.crawlLog ++
            ["Search for \"" ++ st.searchQuery ++ "\": " ++ toString results.length ++
              " results"] }
    | .error message => { st with crawlLog := st.crawlLog ++ ["Search error: " ++ message] }

/-- The text contains the query when letter case is ignored: the lower-case
form of the text has the lower-case form of the query as a contiguous part. -/
def containsIgnoringCase (toLowerCase : String → String) (text query : String) : Prop :=
  ∃ before after : List Char,
    (toLowerCase text).toList = before ++ (toLowerCase query).toList ++ after

/-! ## Exact arithmetic for `formatBytes` -/

/-- The integer logarithm to base 1024, by repeated division. -/
def log1024 : Nat → Nat → Nat
  | 0, _ => 0
  | fuel + 1, n => if n < 1024 then 0 else log1024 fuel (n / 1024) + 1

/-- The value of `Math.floor(Math.log(bytes) / Math.log(1024))` when the
logarithms are exact. -/
def exactFloorLog (bytes : Nat) : Nat := log1024 bytes bytes

/-- The text of `parseFloat((bytes / Math.pow(1024, i)).toFixed(2))` when the
quotient is exact: the quotient in hundredths, rounded to the nearest with
halves upwards, written without trailing zeros in the fraction. -/
def exactNumber (bytes i : Nat) : String :=
  let hundredths := (2 * 100 * bytes + 1024 ^ i) / (2 * 1024 ^ i)
  let whole := toString (hundredths / 100)
  let fraction := hundredths % 100
  if fraction = 0 then whole
  else if fraction % 10 = 0 then whole ++ "." ++ toString (fraction / 10)
  else if fraction < 10 then whole ++ ".0" ++ toString fraction
  else whole ++ "." ++ toString fraction

/-! ## Sample data -/

/-- A comment mark as the schema declares it. -/
def commentMark : Mark := ⟨"comment", [("id", "c1"), ("comment", "check")]⟩

/-- The run "abc" with the comment mark on a and c only. -/
def markedAbc : Tree :=
  [Item.char 'a' [commentMark], Item.char 'b' [], Item.char 'c' [commentMark]]

/-- The run "abc" without marks. -/
def plainAbc : Tree := [Item.char 'a' [], Item.char 'b' [], Item.char 'c' []]

/-- The document "Hello world" at version 0. -/
def helloDoc : Coordinator := Coordinator.init "doc" (plainText "Hello world")

/-- Client A deletes "Hello " against version 0. -/
def deleteHello : Batch := ⟨"A", 0, [Step.delete 0 6]⟩

/-- Client B appends "!" against version 0. -/
def insertBang : Batch := ⟨"B", 0, [Step.insert 11 (plainText "!")]⟩

/-- A batch whose second step opens a hyperlink node without closing it. -/
def brokenBatch : Batch :=
  ⟨"C", 0, [Step.insert 11 (plainText "!"),
    Step.insert 0 [Item.openNode "hyperlink" [("href", "x")]]]⟩

/-- An API object that has both methods the component calls. -/
def completeHypertextAPI : HypertextAPI :=
  { sendCollaborativeUpdate := true, onCollaborativeUpdate := true }

/-- An editor state on "Hello world" with the selection on "world" and nothing pending. -/
def helloView : EditorState :=
  { confirmed := plainText "Hello world", selection := ⟨6, 11⟩, version := 0,
    unconfirmed := [], clientID := "me" }

/-- The component with that view, no annotations and the selection on "world". -/
def helloEditor : HypertextEditor EditorState :=
  { editorView := some helloView, annotations := [], currentSelection := some ⟨6, 11⟩,
    showAnnotationPanel := true }

/-- A local edit: "!" inserted at the end of "Hello world". -/
def appendBang : Transaction := ⟨[Step.insert 11 (plainText "!")], true⟩

/-- A further local edit: "?" inserted after it. -/
def appendQuery : Transaction := ⟨[Step.insert 12 (plainText "?")], true⟩

/-- A non-collaborative editor without onChange callback and without API object. -/
def plainEnv : Env := ⟨false, false, none⟩

/-- The string method `toUpperCase` on text of ASCII characters. -/
def asciiUpperCase (s : String) : String := String.mk (s.toList.map Char.toUpper)

/-- The string method `toLowerCase` on text of ASCII characters. -/
def asciiLowerCase (s : String) : String := String.mk (s.toList.map Char.toLower)

/-- A mock markup that is the title alone. -/
def titleOnly (title _url : String) : String := title

/-- The browser after the page load of the mount (lines 20-22) and a visit of
`www.w3.org` from the address bar. -/
def visitedW3 : Browser :=
  loadPage titleOnly (loadPage titleOnly Browser.initial "https://info.cern.ch") "www.w3.org"

/-- The first page of the mock crawl (`KnowbotPanel.js` lines 91-99). -/
def cernPage : CrawlPage :=
  { url := "https://info.cern.ch", title := "CERN - World Wide Web",
    content := "The WorldWideWeb (W3) is a wide-area hypermedia information retrieval initiative...",
    links := ["https://www.w3.org", "https://info.cern.ch/hypertext/WWW/TheProject.html"],
    depth := 0, size := 2048, timestamp := "1991-08-06T00:00:00.000Z" }

/-- The second page of the mock crawl (lines 100-108). -/
def w3Page : CrawlPage :=
  { url := "https://www.w3.org", title := "World Wide Web Consortium (W3C)",
    content := "The World Wide Web Consortium (W3C) is an international community...",
    links := ["https://www.w3.org/TR/", "https://www.w3.org/standards/"],
    depth := 1, size := 3072, timestamp := "1991-08-06T00:00:00.000Z" }

/-- The third page of the mock crawl (lines 109-117). -/
def projectPage : CrawlPage :=
  { url := "https://info.cern.ch/hypertext/WWW/TheProject.html",
    title := "The World Wide Web project",
    content := "The WorldWideWeb project is to allow universal access to large sets of information...",
    links := ["https://info.cern.ch/hypertext/WWW/Summary.html"],
    depth := 1, size := 1536, timestamp := "1991-08-06T00:00:00.000Z" }

/-- The knowbot panel after the mock crawl, with the query "PROJECT" typed. -/
def projectQuery : KnowbotPanel :=
  { crawlResults := [cernPage, w3Page, projectPage], searchQuery := "PROJECT",
    searchResults := [], crawlLog := [] }

/-- The knowbot panel after the mock crawl and a search, with a query of two
blanks typed. -/
def blankQuery : KnowbotPanel :=
  { crawlResults := [cernPage, w3Page, projectPage], searchQuery := "  ",
    searchResults := [projectPage], crawlLog := [] }

/-- An open document without title and path. -/
def untitledDocument : OpenDocument := { title := some "", content := some "<p>Hi</p>", path := none }

/-- The export panel with the first two pages of the crawl selected. -/
def twoSelected : ExportPanel := { ExportPanel.initial with selectedPages := [cernPage, w3Page] }

/-! ## Auxiliary lemmas -/

/-- The part of a spliced run before the splice. -/
theorem take_splice (A X C : List Item) : (A ++ X ++ C).take A.length = A := by
  rw [List.append_assoc, List.take_left']
  rfl

/-- The part of a spliced run after the splice. -/
theorem drop_splice (A X C : List Item) :
    (A ++ X ++ C).drop (A.length + X.length) = C := by
  have h : A.length + X.length = (A ++ X).length := by simp
  rw [h, List.drop_left']
  rfl

/-- The slice of a spliced run at the splice. -/
theorem slice_splice (A X C : List Item) :
    slice (A ++ X ++ C) A.length (A.length + X.length) = X := by
  unfold slice
  have h : A.length + X.length = (A ++ X).length := by simp
  rw [h, List.take_left' rfl, List.drop_left' rfl]

/-- A tree splits at a range that addresses it into the part before, the range and the part after. -/
theorem tree_split (t : Tree) (start stop : Nat) (h1 : start ≤ stop) (h2 : stop ≤ t.length) :
    t = t.take start ++ slice t start stop ++ t.drop stop ∧
    (t.take start).length = start ∧ (slice t start stop).length = stop - start := by
  refine ⟨?_, ?_, ?_⟩
  · unfold slice
    have h3 : t.take start = (t.take stop).take start := by
      rw [List.take_take, Nat.min_eq_left h1]
    rw [h3, List.take_append_drop, List.take_append_drop]
  · simp; omega
  · unfold slice
    simp; omega

/-- The length of a slice within the tree. -/
theorem slice_length (t : Tree) (start stop : Nat) (h : stop ≤ t.length) :
    (slice t start stop).length = stop - start := by
  unfold slice
  simp
  omega

/-- Insert at the end of the first part. -/
theorem rewrite_insert_splice (A M C : List Item) :
    rewrite (A ++ C) (Step.insert A.length M) = some (A ++ M ++ C) := by
  simp [rewrite]

/-- Delete of the middle part. -/
theorem rewrite_delete_splice (A X C : List Item) :
    rewrite (A ++ X ++ C) (Step.delete A.length (A.length + X.length)) = some (A ++ C) := by
  have h := drop_splice A X C
  have h2 := take_splice A X C
  simp only [rewrite]
  rw [if_pos (by simp), h, h2]

/-- Replace of the middle part. -/
theorem rewrite_replace_splice (A X C M : List Item) :
    rewrite (A ++ X ++ C) (Step.replace A.length (A.length + X.length) M) =
      some (A ++ M ++ C) := by
  have h := drop_splice A X C
  have h2 := take_splice A X C
  simp only [rewrite]
  rw [if_pos (by simp), h, h2]

/-- Undoing a step on the flattened tree: the inverse computed against the tree
before the step rewrites the result of the step back to that tree. -/
theorem rewrite_invert (t t' : Tree) (s : Step) (h : rewrite t s = some t') :
    rewrite t' (invert s t) = some t := by
  cases s with
  | insert pos content =>
    simp only [rewrite] at h
    split at h
    · rename_i hp
      injection h with h
      subst h
      have hl : (t.take pos).length = pos := by simp; omega
      have := rewrite_delete_splice (t.take pos) content (t.drop pos)
      rw [hl, List.take_append_drop] at this
      exact this
    · exact absurd h (by simp)
  | delete start stop =>
    simp only [rewrite] at h
    split at h
    · rename_i hp
      injection h with h
      subst h
      obtain ⟨h1, h2, _⟩ := tree_split t start stop hp.1 hp.2
      have := rewrite_insert_splice (t.take start) (slice t start stop) (t.drop stop)
      rw [h2, ← h1] at this
      exact this
    · exact absurd h (by simp)
  | replace start stop content =>
    simp only [rewrite] at h
    split at h
    · rename_i hp
      injection h with h
      subst h
      obtain ⟨h1, h2, _⟩ := tree_split t start stop hp.1 hp.2
      have := rewrite_replace_splice (t.take start) content (t.drop stop) (slice t start stop)
      rw [h2, ← h1] at this
      exact this
    · exact absurd h (by simp)
  | addMark start stop mark =>
    simp only [rewrite] at h
    split at h
    · rename_i hp
      injection h with h
      subst h
      obtain ⟨h1, h2, h3⟩ := tree_split t start stop hp.1 hp.2
      have := rewrite_replace_splice (t.take start) ((slice t start stop).map (addMarkTo mark))
        (t.drop stop) (slice t start stop)
      rw [h2, List.length_map, h3, ← h1, Nat.add_sub_cancel' hp.1] at this
      exact this
    · exact absurd h (by simp)
  | removeMark start stop markType =>
    simp only [rewrite] at h
    split at h
    · rename_i hp
      injection h with h
      subst h
      obtain ⟨h1, h2, h3⟩ := tree_split t start stop hp.1 hp.2
      have := rewrite_replace_splice (t.take start)
        ((slice t start stop).map (removeMarkFrom markType)) (t.drop stop) (slice t start stop)
      rw [h2, List.length_map, h3, ← h1, Nat.add_sub_cancel' hp.1] at this
      exact this
    · exact absurd h (by simp)

/-- A step that rewrites the tree addresses it: from <= to <= length. -/
theorem rewrite_bounds (t t' : Tree) (s : Step) (h : rewrite t s = some t') :
    rangeStart s ≤ rangeEnd s ∧ rangeEnd s ≤ t.length := by
  cases s <;> simp only [rewrite] at h <;> split at h
  all_goals first
    | (rename_i hp; simp only [rangeStart, rangeEnd]; omega)
    | (simp at h)

/-- A step applies exactly when it rewrites the tree into a tree the schema accepts. -/
theorem apply_eq_some (validate : Tree → Bool) (t t' : Tree) (s : Step) :
    apply validate t s = some t' ↔ rewrite t s = some t' ∧ validate t' = true := by
  unfold apply
  cases h : rewrite t s with
  | none => simp
  | some u =>
    by_cases hv : validate u = true
    · simp only [hv, if_true, Option.some.injEq]
      constructor
      · intro e; subst e; exact ⟨rfl, hv⟩
      · intro e; exact e.1
    · simp only [hv, Option.some.injEq]
      constructor
      · intro e; simp at e
      · intro e; rw [e.1] at hv; exact absurd e.2 hv

/-- Closed form of the Replace mapping under right bias. -/
theorem mapReplace_right (start stop len p : Nat) (h : start ≤ stop) :
    mapInsert start len (mapDelete start stop p) Bias.right =
      if p < start then p else if p < stop then start + len else p - (stop - start) + len := by
  simp only [mapInsert, mapDelete]
  split_ifs <;> omega

/-- Closed form of the Replace mapping under left bias. -/
theorem mapReplace_left (start stop len p : Nat) (h : start ≤ stop) :
    mapInsert start len (mapDelete start stop p) Bias.left =
      if p < start then p else if p ≤ stop then start else p - (stop - start) + len := by
  simp only [mapInsert, mapDelete]
  split_ifs <;> omega

/-- No step that turns the unmarked run "abc" into the run marked on a and c leaves position 1 in place: such a step has to replace the whole run. -/
theorem no_exact_inverse_keeps_position (s : Step) (h : rewrite plainAbc s = some markedAbc)
    (b : Bias) : map s 1 b ≠ 1 := by
  cases s with
  | insert pos content =>
    simp only [rewrite] at h
    split at h
    · rename_i hp
      injection h with h
      have hl := congrArg List.length h
      simp [plainAbc, markedAbc] at hl hp
      have hc : content = [] := List.length_eq_zero.mp (by omega)
      subst hc
      simp [plainAbc, markedAbc] at h
    · simp at h
  | delete start stop =>
    simp only [rewrite] at h
    split at h
    · rename_i hp
      injection h with h
      have hl := congrArg List.length h
      simp [plainAbc, markedAbc] at hl hp
      have hc : start = stop := by omega
      subst hc
      simp [plainAbc, markedAbc] at h
    · simp at h
  | replace start stop content =>
    simp only [rewrite] at h
    split at h
    · rename_i hp
      injection h with h
      simp [plainAbc] at hp
      obtain ⟨h1, h2⟩ := hp
      interval_cases stop <;> interval_cases start <;>
        simp [plainAbc, markedAbc, map, mapInsert, mapDelete] at h ⊢
      all_goals first
        | (subst h
           cases b <;> simp)
        | (have hx := congrArg List.getLast? h
           simp [commentMark] at hx)
    · simp at h
  | addMark start stop mark =>
    simp only [rewrite] at h
    split at h
    · rename_i hp
      injection h with h
      simp [plainAbc] at hp
      obtain ⟨h1, h2⟩ := hp
      interval_cases stop <;> interval_cases start <;>
        simp [plainAbc, markedAbc, slice, addMarkTo] at h
    · simp at h
  | removeMark start stop markType =>
    simp only [rewrite] at h
    split at h
    · rename_i hp
      injection h with h
      simp [plainAbc] at hp
      obtain ⟨h1, h2⟩ := hp
      interval_cases stop <;> interval_cases start <;>
        simp [plainAbc, markedAbc, slice, removeMarkFrom] at h
    · simp at h

/-- A resubmitted batch is rejected and the state returned as it was. -/
theorem submit_duplicate (validate : Tree → Bool) (bias : Bias) (c : Coordinator) (b : Batch)
    (h : isDuplicate c b = true) :
    submit validate bias c b = (Reply.rejected RejectReason.duplicate, c) := by
  simp only [submit, h, if_true]

/-- A fresh batch whose final steps all apply is accepted and committed. -/
theorem submit_accepted (validate : Tree → Bool) (bias : Bias) (c : Coordinator) (b : Batch)
    (t : Tree) (hd : isDuplicate c b = false)
    (h : applyAll validate c.tree (finalSteps bias c b) = some t) :
    submit validate bias c b =
      (Reply.accepted (c.version + 1) (finalSteps bias c b),
        c.commit b t (finalSteps bias c b)) := by
  simp [submit, hd, h]

/-- A fresh batch one of whose final steps fails is rejected and the state returned as it was. -/
theorem submit_violation (validate : Tree → Bool) (bias : Bias) (c : Coordinator) (b : Batch)
    (hd : isDuplicate c b = false)
    (h : applyAll validate c.tree (finalSteps bias c b) = none) :
    submit validate bias c b = (Reply.rejected RejectReason.schemaViolation, c) := by
  simp [submit, hd, h]

/-- The two outcomes of a submission: a rejection that returns the state as it
was, or an acceptance that commits the tree produced by the final steps. -/
theorem submit_cases (validate : Tree → Bool) (bias : Bias) (c : Coordinator) (b : Batch) :
    (∃ r, submit validate bias c b = (Reply.rejected r, c)) ∨
    (∃ t, isDuplicate c b = false ∧
      applyAll validate c.tree (finalSteps bias c b) = some t ∧
      submit validate bias c b =
        (Reply.accepted (c.version + 1) (finalSteps bias c b),
          c.commit b t (finalSteps bias c b))) := by
  cases hd : isDuplicate c b with
  | true => exact Or.inl ⟨_, submit_duplicate validate bias c b hd⟩
  | false =>
    cases h : applyAll validate c.tree (finalSteps bias c b) with
    | none => exact Or.inl ⟨_, submit_violation validate bias c b hd h⟩
    | some t => exact Or.inr ⟨t, rfl, rfl, submit_accepted validate bias c b t hd h⟩

/-- Over a run the accepted version numbers are consecutive, and the version and the log grow by their number. -/
theorem acceptedVersions_run (validate : Tree → Bool) (bias : Bias) (batches : List Batch) :
    ∀ c : Coordinator,
      acceptedVersions (run validate bias c batches).1 =
        List.range' (c.version + 1) (acceptedVersions (run validate bias c batches).1).length ∧
      (run validate bias c batches).2.version =
        c.version + (acceptedVersions (run validate bias c batches).1).length ∧
      (run validate bias c batches).2.log.length =
        c.log.length + (acceptedVersions (run validate bias c batches).1).length := by
  induction batches with
  | nil => intro c; simp [run, acceptedVersions]
  | cons b rest ih =>
    intro c
    rcases submit_cases validate bias c b with ⟨r, hs⟩ | ⟨t, _, _, hs⟩
    · simp only [run, hs, acceptedVersions]
      exact ih c
    · simp only [run, hs, acceptedVersions]
      obtain ⟨h1, h2, h3⟩ := ih (c.commit b t (finalSteps bias c b))
      have hv : (c.commit b t (finalSteps bias c b)).version = c.version + 1 := rfl
      have hl : (c.commit b t (finalSteps bias c b)).log.length = c.log.length + 1 := by
        simp [Coordinator.commit]
      rw [hv] at h1 h2
      rw [hl] at h3
      refine ⟨?_, ?_, ?_⟩
      · rw [List.length_cons, List.range'_succ, ← h1]
      · rw [h2]; simp only [List.length_cons]; omega
      · rw [h3]; simp only [List.length_cons]; omega

/-- When a batch applies as a whole, every tree that one of its steps produces is accepted by the schema. -/
theorem applyAll_rewriteAll (validate : Tree → Bool) (steps : List Step) :
    ∀ (t t' : Tree), applyAll validate t steps = some t' →
      ∀ (i : Nat) (s : Step) (u bad : Tree), steps[i]? = some s →
        rewriteAll t (steps.take i) = some u → rewrite u s = some bad →
        validate bad = true := by
  induction steps with
  | nil => intro t t' _ i s u bad hs; simp at hs
  | cons x rest ih =>
    intro t t' h i s u bad hs hu hbad
    simp only [applyAll] at h
    cases hx : apply validate t x with
    | none => rw [hx] at h; simp at h
    | some t1 =>
      rw [hx] at h
      simp only at h
      obtain ⟨hr, hv⟩ := (apply_eq_some validate t t1 x).1 hx
      cases i with
      | zero =>
        simp only [List.getElem?_cons_zero, Option.some.injEq] at hs
        simp only [List.take_zero, rewriteAll, Option.some.injEq] at hu
        subst hs; subst hu
        rw [hr] at hbad
        injection hbad with hbad
        rw [← hbad]; exact hv
      | succ j =>
        simp only [List.getElem?_cons_succ] at hs
        simp only [List.take_succ_cons, rewriteAll, hr] at hu
        exact ih t1 t' h j s u bad hs hu hbad

/-- A client applying the steps of an accepted batch to the tree the coordinator applied them to obtains the same tree. -/
theorem applyAll_applyLocal (validate : Tree → Bool) (steps : List Step) :
    ∀ (t t' : Tree), applyAll validate t steps = some t' → applyLocal t steps = t' := by
  induction steps with
  | nil => intro t t' h; simp only [applyAll, Option.some.injEq] at h; simpa [applyLocal] using h
  | cons x rest ih =>
    intro t t' h
    simp only [applyAll] at h
    cases hx : apply validate t x with
    | none => rw [hx] at h; simp at h
    | some t1 =>
      rw [hx] at h
      simp only at h
      obtain ⟨hr, _⟩ := (apply_eq_some validate t t1 x).1 hx
      have := ih t1 t' h
      simp only [applyLocal, List.foldl_cons, hr, Option.getD_some] at this ⊢
      exact this

/-- Rebasing through no step leaves a step as it is. -/
theorem rebaseStep_nil (bias : Bias) (s : Step) : rebaseStep bias [] s = s := by
  cases s <;> rfl

/-- Rebasing through two runs of steps one after the other is rebasing through
their concatenation. -/
theorem rebaseStep_append (bias : Bias) (xs ys : List Step) (s : Step) :
    rebaseStep bias ys (rebaseStep bias xs s) = rebaseStep bias (xs ++ ys) s := by
  cases s <;> simp [rebaseStep, mapThrough, List.foldl_append]

/-- The steps a batch has not seen, after one more batch has been committed. -/
theorem unseenSteps_commit (c : Coordinator) (x : Batch) (t : Tree) (steps : List Step)
    (base : Nat) (h : base ≤ c.log.length) :
    unseenSteps (c.commit x t steps) base = unseenSteps c base ++ steps := by
  simp [unseenSteps, Coordinator.commit, List.drop_append_of_le_length h]

/-- A client that has seen the canonical tree and version, and whose pending
steps are none or the steps of its batch re-mapped through what the batch has
not seen, is in the same position after the broadcasts of a run; its pending
steps are none once the run has accepted its batch, and stay none. -/
theorem receiveAll_run (validate : Tree → Bool) (bias : Bias) (b : Batch)
    (arrival : List Batch) :
    ∀ (c : Coordinator) (st : EditorState), c.log.length = c.version →
      b.baseVersion ≤ c.version → st.confirmed = c.tree → st.version = c.version →
      (st.unconfirmed = [] ∨
        st.unconfirmed = b.steps.map (rebaseStep bias (unseenSteps c b.baseVersion))) →
      ∃ st', receiveAll (engineWith bias) (some st)
          (broadcasts (run validate bias c arrival).1) = some st' ∧
        st'.confirmed = (run validate bias c arrival).2.tree ∧
        st'.version = (run validate bias c arrival).2.version ∧
        (st'.unconfirmed = [] ∨ acceptedIn validate bias c arrival b = false) ∧
        (st.unconfirmed = [] → st'.unconfirmed = []) := by
  induction arrival with
  | nil =>
    intro c st _ _ h1 h2 _
    exact ⟨st, rfl, h1, h2, Or.inr rfl, fun h => h⟩
  | cons x rest ih =>
    intro c st hlog hbase h1 h2 hpend
    rcases submit_cases validate bias c x with ⟨r, hs⟩ | ⟨t, _, h, hs⟩
    · obtain ⟨st', e1, e2, e3, e4, e5⟩ := ih c st hlog hbase h1 h2 hpend
      refine ⟨st', ?_, ?_, ?_, ?_, e5⟩
      · simpa only [run, hs, broadcasts] using e1
      · simpa only [run, hs] using e2
      · simpa only [run, hs] using e3
      · simpa only [acceptedIn, hs, Reply.isAccepted, Bool.and_false, Bool.false_or] using e4
    · have hl := applyAll_applyLocal validate _ c.tree t h
      have hkeep : st.unconfirmed = [] →
          ((engineWith bias).applySteps st (finalSteps bias c x) (c.version + 1)).unconfirmed =
            [] := by
        intro he
        simp [engineWith, he]
      have hpend' :
          ((engineWith bias).applySteps st (finalSteps bias c x) (c.version + 1)).unconfirmed =
            [] ∨
          ((engineWith bias).applySteps st (finalSteps bias c x) (c.version + 1)).unconfirmed =
            b.steps.map (rebaseStep bias
              (unseenSteps (c.commit x t (finalSteps bias c x)) b.baseVersion)) := by
        rcases hpend with he | he
        · exact Or.inl (hkeep he)
        · by_cases heq : finalSteps bias c x = st.unconfirmed
          · left
            simp [engineWith, heq]
          · right
            have hmap :
                ((engineWith bias).applySteps st (finalSteps bias c x)
                  (c.version + 1)).unconfirmed =
                  st.unconfirmed.map (rebaseStep bias (finalSteps bias c x)) := by
              simp [engineWith, heq]
            rw [hmap, he, unseenSteps_commit c x t _ _ (by omega), List.map_map]
            apply List.map_congr_left
            intro s _
            exact rebaseStep_append bias _ _ s
      obtain ⟨st', e1, e2, e3, e4, e5⟩ := ih (c.commit x t (finalSteps bias c x))
        ((engineWith bias).applySteps st (finalSteps bias c x) (c.version + 1))
        (by simp [Coordinator.commit, hlog])
        (by simp only [Coordinator.commit]; omega)
        (by simp only [engineWith, h1, hl, Coordinator.commit]) rfl hpend'
      refine ⟨st', ?_, ?_, ?_, ?_, fun he => e5 (hkeep he)⟩
      · simpa only [run, hs, broadcasts, receiveAll, List.foldl_cons, handleCollabUpdate]
          using e1
      · simpa only [run, hs] using e2
      · simpa only [run, hs] using e3
      · by_cases hx : x = b
        · left
          apply e5
          rcases hpend with he | he
          · exact hkeep he
          · have hfinal : finalSteps bias c x = st.unconfirmed := by
              rw [he, hx]
              unfold finalSteps
              split
              · rfl
              · have hz : unseenSteps c b.baseVersion = [] := by
                  have hd : c.log.drop b.baseVersion = [] :=
                    List.drop_eq_nil_of_le (by omega)
                  simp [unseenSteps, hd]
                have hid : rebaseStep bias [] = id := funext (rebaseStep_nil bias)
                rw [hz, hid, List.map_id]
            simp [engineWith, hfinal]
        · rcases e4 with e4 | e4
          · exact Or.inl e4
          · right
            simp only [acceptedIn, hs, hx, decide_False, Bool.false_and, Bool.false_or]
            exact e4

/-- A batch is a duplicate exactly when the log holds an entry accepted from it. -/
theorem isDuplicate_iff (c : Coordinator) (b : Batch) :
    isDuplicate c b = true ↔ b.key ∈ c.log.map LogEntry.key := by
  simp only [isDuplicate, List.any_eq_true, decide_eq_true_eq, List.mem_map, Batch.key,
    LogEntry.key, Prod.mk.injEq]

/-- In a log without repeated entries a batch that occurs has exactly one entry. -/
theorem filter_key_length (a : String × Nat × List Step) :
    ∀ l : List LogEntry, (l.map LogEntry.key).Nodup → a ∈ l.map LogEntry.key →
      (l.filter (fun e => decide (e.key = a))).length = 1 := by
  intro l
  induction l with
  | nil => intro _ h; simp at h
  | cons x xs ih =>
    intro hn hm
    rw [List.map_cons, List.nodup_cons] at hn
    by_cases hx : x.key = a
    · have hnone : xs.filter (fun e => decide (e.key = a)) = [] := by
        rw [List.filter_eq_nil_iff]
        intro e he
        simp only [decide_eq_true_eq]
        intro hea
        exact hn.1 (by rw [hx, ← hea]; exact List.mem_map_of_mem _ he)
      simp [List.filter_cons, hx, hnone]
    · have hm' : a ∈ xs.map LogEntry.key := by
        rw [List.map_cons, List.mem_cons] at hm
        rcases hm with h | h
        · exact absurd h.symm hx
        · exact h
      simp only [List.filter_cons, hx, decide_False]
      exact ih hn.2 hm'

/-- A submission keeps the log free of repeated batches and keeps every entry. -/
theorem submit_log (validate : Tree → Bool) (bias : Bias) (c : Coordinator) (b : Batch) :
    (c.log.map LogEntry.key).Nodup →
    ((submit validate bias c b).2.log.map LogEntry.key).Nodup ∧
    ∀ k, k ∈ c.log.map LogEntry.key → k ∈ (submit validate bias c b).2.log.map LogEntry.key := by
  intro hn
  rcases submit_cases validate bias c b with ⟨r, hs⟩ | ⟨t, hd, _, hs⟩
  · rw [hs]
    exact ⟨hn, fun k hk => hk⟩
  · rw [hs]
    have hnot : b.key ∉ c.log.map LogEntry.key := by
      intro hmem
      rw [← isDuplicate_iff, hd] at hmem
      exact absurd hmem (by simp)
    have hlog : (c.commit b t (finalSteps bias c b)).log.map LogEntry.key =
        c.log.map LogEntry.key ++ [b.key] := by
      simp [Coordinator.commit, LogEntry.key, Batch.key]
    rw [hlog]
    refine ⟨?_, fun k hk => List.mem_append_left _ hk⟩
    rw [List.nodup_append]
    refine ⟨hn, List.nodup_singleton _, ?_⟩
    intro k hk hk'
    rw [List.mem_singleton] at hk'
    subst hk'
    exact hnot hk

/-- A run keeps the log free of repeated batches and keeps every entry. -/
theorem run_log (validate : Tree → Bool) (bias : Bias) (batches : List Batch) :
    ∀ c : Coordinator, (c.log.map LogEntry.key).Nodup →
      ((run validate bias c batches).2.log.map LogEntry.key).Nodup ∧
      ∀ k, k ∈ c.log.map LogEntry.key →
        k ∈ (run validate bias c batches).2.log.map LogEntry.key := by
  induction batches with
  | nil => intro c hn; exact ⟨hn, fun k hk => hk⟩
  | cons b rest ih =>
    intro c hn
    obtain ⟨h1, h2⟩ := submit_log validate bias c b hn
    obtain ⟨h3, h4⟩ := ih (submit validate bias c b).2 h1
    exact ⟨h3, fun k hk => h4 k (h2 k hk)⟩

/-- A text has no text after a first '>' exactly when it has no '>'. -/
theorem afterClose_none (l : List Char) : afterClose l = none ↔ '>' ∉ l := by
  induction l with
  | nil => simp [afterClose]
  | cons c rest ih =>
    simp only [afterClose]
    split
    · rename_i hc
      subst hc
      simp
    · rename_i hc
      rw [ih]
      simp only [List.mem_cons, not_or]
      constructor
      · intro h; exact ⟨fun e => hc e.symm, h⟩
      · intro h; exact h.2

/-- What follows the first '>' of a text is a shorter part of that text. -/
theorem afterClose_some (l r : List Char) (h : afterClose l = some r) :
    r.length < l.length ∧ ∀ x ∈ r, x ∈ l := by
  induction l with
  | nil => simp [afterClose] at h
  | cons c rest ih =>
    simp only [afterClose] at h
    split at h
    · injection h with h
      subst h
      exact ⟨by simp, fun x hx => List.mem_cons_of_mem _ hx⟩
    · obtain ⟨h1, h2⟩ := ih h
      exact ⟨by simp only [List.length_cons]; omega, fun x hx => List.mem_cons_of_mem _ (h2 x hx)⟩

/-- Tag removal only removes: every character of the result is a character of
the text, and no '<' of the result has a '>' after it. -/
theorem removeTags_spec : ∀ (n : Nat) (l : List Char), l.length ≤ n →
    (∀ x ∈ removeTags l, x ∈ l) ∧ containsTag (removeTags l) = false := by
  intro n
  induction n with
  | zero =>
    intro l hl
    have : l = [] := List.length_eq_zero.mp (by omega)
    subst this
    simp [removeTags, containsTag]
  | succ n ih =>
    intro l hl
    cases l with
    | nil => simp [removeTags, containsTag]
    | cons c rest =>
      simp only [List.length_cons] at hl
      rw [removeTags]
      split
      · rename_i hc
        split
        · rename_i r hr
          obtain ⟨h1, h2⟩ := afterClose_some rest r hr
          obtain ⟨h3, h4⟩ := ih r (by omega)
          exact ⟨fun x hx => List.mem_cons_of_mem _ (h2 x (h3 x hx)), h4⟩
        · rename_i hr
          obtain ⟨h3, h4⟩ := ih rest (by omega)
          have hno : '>' ∉ removeTags rest := fun hm =>
            (afterClose_none rest).1 hr (h3 _ hm)
          refine ⟨?_, ?_⟩
          · intro x hx
            rcases List.mem_cons.1 hx with h | h
            · rw [h]; exact List.mem_cons_self _ _
            · exact List.mem_cons_of_mem _ (h3 x h)
          · simp only [containsTag, h4, Bool.or_false, Bool.and_eq_false_imp]
            intro _
            simpa using hno
      · rename_i hc
        obtain ⟨h3, h4⟩ := ih rest (by omega)
        refine ⟨?_, ?_⟩
        · intro x hx
          rcases List.mem_cons.1 hx with h | h
          · rw [h]; exact List.mem_cons_self _ _
          · exact List.mem_cons_of_mem _ (h3 x h)
        · simp only [containsTag, h4, Bool.or_false, Bool.and_eq_false_imp]
          intro h
          exact absurd (by simpa using h) hc

/-- A text that contains a match of the tag pattern, '<' followed by
characters other than '>' and then '>', has a '<' with a '>' after it. -/
theorem containsTag_of_match (a b c : List Char) :
    containsTag (a ++ '<' :: (b ++ '>' :: c)) = true := by
  induction a with
  | nil => simp [containsTag]
  | cons x a ih => simp [containsTag, ih]

/-- Appending text without '<' and '>' adds no tag. -/
theorem containsTag_append (l m : List Char) (h : containsTag l = false)
    (h1 : '<' ∉ m) (h2 : '>' ∉ m) : containsTag (l ++ m) = false := by
  induction l with
  | nil =>
    induction m with
    | nil => rfl
    | cons x m ihm =>
      simp only [List.mem_cons, not_or] at h1 h2
      simp only [List.nil_append, containsTag, Bool.or_eq_false_iff, Bool.and_eq_false_imp]
      refine ⟨?_, by simpa using ihm h1.2 h2.2⟩
      intro hx
      exact absurd (by simpa using hx) (fun e : x = '<' => h1.1 e.symm)
  | cons x l ih =>
    simp only [containsTag, Bool.or_eq_false_iff, Bool.and_eq_false_imp] at h
    simp only [List.cons_append, containsTag, Bool.or_eq_false_iff, Bool.and_eq_false_imp]
    refine ⟨?_, ih h.2⟩
    intro hx
    have := h.1 hx
    simp only [List.contains_eq_any_beq, List.any_eq_false, beq_iff_eq] at this ⊢
    intro y hy e
    rcases List.mem_append.1 hy with hy | hy
    · exact this y hy e
    · exact h2 (e ▸ hy)

/-- With an API object that has the method, handleCollaborativeUpdate sends the one message of the sendable, and nothing when there is no sendable. -/
theorem handleCollaborativeUpdate_complete {σ : Type} (pm : ProseMirror σ) (env : Env)
    (api : HypertextAPI) (view : σ) (hapi : env.hypertextAPI = some api)
    (hsend : api.sendCollaborativeUpdate = true) :
    handleCollaborativeUpdate pm env view =
      match pm.sendableSteps view with
      | some sendable =>
          Except.ok
            [Effect.sendCollaborativeUpdate sendable.version sendable.steps sendable.clientID]
      | none => Except.ok [] := by
  unfold handleCollaborativeUpdate
  cases pm.sendableSteps view with
  | none => rfl
  | some sendable => simp [hapi, hsend]

/-- No event changes the annotations list. -/
theorem handleEvent_annotations {σ : Type} (pm : ProseMirror σ) (env : Env)
    (ed : HypertextEditor σ) (ev : EditorEvent) :
    (handleEvent pm env ed ev).1.annotations = ed.annotations := by
  cases ev with
  | dispatched tr =>
    simp only [handleEvent]
    unfold dispatchTransaction
    cases ed.editorView with
    | none => rfl
    | some view =>
      simp only
      split <;> rfl
  | delivered update =>
    simp only [handleEvent]
    unfold onCollaborativeUpdate
    split <;> rfl

/-- The submissions among two runs of calls. -/
theorem submissions_append (xs ys : List Effect) :
    submissions (xs ++ ys) = submissions xs ++ submissions ys := by
  induction xs with
  | nil => rfl
  | cons x xs ih => cases x <;> simp [submissions, ih]

/-- With an API object that has the method, a document-changing transaction in collaborative mode that leaves sendable steps is submitted at once, as one message. -/
theorem dispatchTransaction_submits {σ : Type} (pm : ProseMirror σ) (env : Env)
    (api : HypertextAPI) (ed : HypertextEditor σ) (view : σ) (tr : Transaction)
    (hcollab : env.isCollaborative = true) (hapi : env.hypertextAPI = some api)
    (hsend : api.sendCollaborativeUpdate = true) (hview : ed.editorView = some view)
    (hchanged : tr.docChanged = true)
    (sendable : Sendable) (hsendable : pm.sendableSteps (pm.apply view tr) = some sendable) :
    (dispatchTransaction pm env ed tr).1.editorView = some (pm.apply view tr) ∧
    submissions (dispatchTransaction pm env ed tr).2.1 =
      [Effect.sendCollaborativeUpdate sendable.version sendable.steps sendable.clientID] ∧
    (dispatchTransaction pm env ed tr).2.2 = none := by
  unfold dispatchTransaction
  simp only [hview, hcollab, hchanged, Bool.and_self, if_true,
    handleCollaborativeUpdate_complete pm env api _ hapi hsend, hsendable]
  refine ⟨trivial, ?_, trivial⟩
  rw [submissions_append]
  split <;> simp [submissions]

/-- A text starts with a given beginning exactly when it is that beginning
followed by a rest. -/
theorem startsWithChars_iff (s p : List Char) :
    startsWithChars s p = true ↔ ∃ r, s = p ++ r := by
  induction p generalizing s with
  | nil => simp [startsWithChars]
  | cons d p ih =>
    cases s with
    | nil => simp [startsWithChars]
    | cons c s =>
      simp only [startsWithChars, Bool.and_eq_true, beq_iff_eq, ih, List.cons_append,
        List.cons.injEq]
      constructor
      · rintro ⟨rfl, r, rfl⟩
        exact ⟨r, rfl, rfl⟩
      · rintro ⟨r, rfl, rfl⟩
        exact ⟨rfl, r, rfl⟩

/-- The string method `startsWith` holds exactly of the strings that are the
beginning followed by a rest. -/
theorem startsWith_iff (s p : String) : startsWith s p = true ↔ ∃ r : String, s = p ++ r := by
  unfold startsWith
  rw [startsWithChars_iff]
  constructor
  · rintro ⟨r, h⟩
    refine ⟨String.mk r, ?_⟩
    apply String.ext
    simpa using h
  · rintro ⟨r, rfl⟩
    exact ⟨r.toList, by simp⟩

/-- A text includes a query exactly when it is the query between two texts. -/
theorem includesChars_iff (s q : List Char) :
    includesChars s q = true ↔ ∃ a b, s = a ++ q ++ b := by
  induction s with
  | nil =>
    simp only [includesChars, startsWithChars_iff]
    constructor
    · rintro ⟨r, h⟩
      exact ⟨[], r, by simpa using h⟩
    · rintro ⟨a, b, h⟩
      have h1 : a ++ q ++ b = [] := h.symm
      simp only [List.append_eq_nil] at h1
      obtain ⟨⟨-, rfl⟩, rfl⟩ := h1
      exact ⟨[], rfl⟩
  | cons c s ih =>
    simp only [includesChars, Bool.or_eq_true, startsWithChars_iff, ih]
    constructor
    · rintro (⟨r, h⟩ | ⟨a, b, h⟩)
      · exact ⟨[], r, by simpa using h⟩
      · exact ⟨c :: a, b, by simp [h]⟩
    · rintro ⟨a, b, h⟩
      cases a with
      | nil => exact Or.inl ⟨b, by simpa using h⟩
      | cons d a =>
        simp only [List.cons_append, List.cons.injEq] at h
        exact Or.inr ⟨a, b, h.2⟩

/-- What `trim` leaves is empty exactly when every character is white space. -/
theorem trimChars_eq_nil (l : List Char) :
    trimChars l = [] ↔ ∀ c ∈ l, jsWhiteSpace c = true := by
  unfold trimChars
  rw [List.reverse_eq_nil_iff, List.dropWhile_eq_nil_iff]
  simp only [List.mem_reverse]
  constructor
  · intro h c hc
    by_cases hw : jsWhiteSpace c = true
    · exact hw
    · exfalso
      have hne : l.dropWhile jsWhiteSpace ≠ [] := by
        intro hnil
        rw [List.dropWhile_eq_nil_iff] at hnil
        exact hw (hnil c hc)
      obtain ⟨x, xs, hx⟩ := List.exists_cons_of_ne_nil hne
      have hmem : x ∈ l.dropWhile jsWhiteSpace := by rw [hx]; simp
      have hhead : (l.dropWhile jsWhiteSpace).head? = some x := by rw [hx]; rfl
      have := List.head?_dropWhile_not jsWhiteSpace l
      rw [hhead] at this
      simp only [Option.all_some, Bool.not_eq_true'] at this
      have h2 := h x hmem
      rw [h2] at this
      exact absurd this (by decide)
  · intro h c hc
    exact h c ((List.dropWhile_sublist _).subset hc)

/-- The string method `trim` gives the empty string exactly on the strings of
white space only. -/
theorem trim_eq_empty (s : String) : trim s = "" ↔ ∀ c ∈ s.toList, jsWhiteSpace c = true := by
  unfold trim
  rw [← trimChars_eq_nil]
  constructor
  · intro h
    have := congrArg String.toList h
    simpa using this
  · intro h
    rw [h]

/-- The integer logarithm by repeated division brackets its argument between
two consecutive powers of 1024. -/
theorem log1024_spec (fuel n : Nat) (hn : 0 < n) (hf : n ≤ fuel) :
    1024 ^ log1024 fuel n ≤ n ∧ n < 1024 ^ (log1024 fuel n + 1) := by
  induction fuel generalizing n with
  | zero => omega
  | succ fuel ih =>
    simp only [log1024]
    split
    · simp only [pow_zero, zero_add, pow_one]
      omega
    · have h1 : 0 < n / 1024 := Nat.div_pos (by omega) (by decide)
      have h2 : n / 1024 ≤ fuel := by
        have : n / 1024 < n := Nat.div_lt_self hn (by decide)
        omega
      obtain ⟨lo, hi⟩ := ih (n / 1024) h1 h2
      constructor
      · rw [pow_succ]
        have := Nat.div_mul_le_self n 1024
        calc 1024 ^ log1024 fuel (n / 1024) * 1024 ≤ n / 1024 * 1024 :=
              Nat.mul_le_mul_right _ lo
          _ ≤ n := this
      · rw [pow_succ]
        exact (Nat.div_lt_iff_lt_mul (by decide)).1 hi

/-- The filter of a list by a test that all its elements pass is the list. -/
theorem filter_url_ne_self (page : CrawlPage) (prev : List CrawlPage)
    (h : prev.any (fun p => p.url == page.url) = false) :
    prev.filter (fun p => p.url != page.url) = prev := by
  rw [List.filter_eq_self]
  intro p hp
  rw [List.any_eq_false] at h
  have := h p hp
  simpa [bne] using this

/-- When there is content and the object has the method, `startExport` sets
the status and the progress and calls the method on the content. -/
theorem startExport_calls (toUpperCase : String → String) (document : Option OpenDocument)
    (st : ExportPanel) (content : List ExportItem) (methods : List String)
    (hc : contentToExport document st.selectedPages = some content)
    (hm : exportMethod toUpperCase st.exportFormat ∈ methods) :
    startExport toUpperCase document (some methods) st =
      ({ st with
         exportStatus := "processing"
         exportProgress := ⟨0, 100, "Preparing export..."⟩ },
       [ExportEffect.callExportAPI (exportMethod toUpperCase st.exportFormat) content]) := by
  have hguard : (document.isNone && st.selectedPages.length == 0) = false := by
    cases document with
    | some d => rfl
    | none =>
      cases hsel : st.selectedPages with
      | nil => simp [contentToExport, hsel] at hc
      | cons p ps => rfl
  have hcontains : methods.contains (exportMethod toUpperCase st.exportFormat) = true := by
    simpa using hm
  simp only [startExport, hguard, hc, hcontains]
  simp

/-- Without an API object, or with one that has no method
`sendCollaborativeUpdate`, a dispatched transaction makes no submission. -/
theorem dispatchTransaction_no_submission {σ : Type} (pm : ProseMirror σ) (env : Env)
    (hapi : env.hypertextAPI = none ∨ env.hypertextAPI = some preloadHypertextAPI)
    (ed : HypertextEditor σ) (tr : Transaction) :
    submissions (dispatchTransaction pm env ed tr).2.1 = [] := by
  have hsend : ∀ view : σ, handleCollaborativeUpdate pm env view = Except.ok [] ∨
      ∃ e, handleCollaborativeUpdate pm env view = Except.error e := by
    intro view
    unfold handleCollaborativeUpdate
    cases pm.sendableSteps view with
    | none => exact Or.inl rfl
    | some sendable =>
      rcases hapi with h | h
      · rw [h]
        exact Or.inl rfl
      · rw [h]
        exact Or.inr ⟨_, rfl⟩
  unfold dispatchTransaction
  cases ed.editorView with
  | none => rfl
  | some view =>
    simp only
    by_cases hc : (env.isCollaborative && tr.docChanged) = true
    · rw [if_pos hc]
      rcases hsend (pm.apply view tr) with h | ⟨e, h⟩
      · rw [h]
        simp only [List.append_nil]
        split <;> rfl
      · rw [h]
        simp only
        split <;> rfl
    · rw [if_neg hc]
      simp only [List.append_nil]
      split <;> rfl

/-- Without an API object, or with one that has no method
`sendCollaborativeUpdate`, no sequence of events makes a submission. -/
theorem handleEvents_no_submission {σ : Type} (pm : ProseMirror σ) (env : Env)
    (hapi : env.hypertextAPI = none ∨ env.hypertextAPI = some preloadHypertextAPI)
    (events : List EditorEvent) :
    ∀ ed : HypertextEditor σ, submissions (handleEvents pm env ed events).2 = [] := by
  induction events with
  | nil => intro ed; rfl
  | cons ev rest ih =>
    intro ed
    simp only [handleEvents, submissions_append, ih, List.append_nil]
    cases ev with
    | dispatched tr => exact dispatchTransaction_no_submission pm env hapi ed tr
    | delivered update => rfl

/-- A dispatched transaction is applied to the state of the view, whether or
not sending raises. -/
theorem dispatchTransaction_applies {σ : Type} (pm : ProseMirror σ) (env : Env)
    (ed : HypertextEditor σ) (view : σ) (tr : Transaction) :
    (dispatchTransaction pm env { ed with editorView := some view } tr).1.editorView =
      some (pm.apply view tr) := by
  unfold dispatchTransaction
  simp only
  split <;> rfl

/-! ## The claims -/

/-- C1: starting from "Hello world" at version 0, Delete(0,6) is accepted first
(document "world", version 1); the batch Insert(11, "!") submitted against base
version 0 is then rebased, position 11 mapping to 5 through the log, applied as
Insert(5, "!"), and the document becomes "world!" at version 2, whatever the
bias. -/
theorem concrete_rebase_scenario (bias : Bias) :
    let c0 := Coordinator.init "doc" (plainText "Hello world")
    let r1 := submit (validate hypertextSchema) bias c0 ⟨"A", 0, [Step.delete 0 6]⟩
    let r2 := submit (validate hypertextSchema) bias r1.2
      ⟨"B", 0, [Step.insert 11 (plainText "!")]⟩
    r1.1 = Reply.accepted 1 [Step.delete 0 6] ∧
    r1.2.tree = plainText "world" ∧ r1.2.version = 1 ∧
    mapThrough (unseenSteps r1.2 0) 11 bias = 5 ∧
    r2.1 = Reply.accepted 2 [Step.insert 5 (plainText "!")] ∧
    r2.2.tree = plainText "world!" ∧ r2.2.version = 2 ∧ textOf r2.2.tree = "world!" := by
  cases bias <;> decide

/-- C2: mapping through Insert(at, content) with content of length L sends a
position p to p + L when p > at, leaves it when p < at, and sends p = at to at
under left bias and to at + L under right bias. -/
theorem map_insert (pos : Nat) (content : List Item) (p : Nat) (bias : Bias) :
    (pos < p → map (Step.insert pos content) p bias = p + content.length) ∧
    (p < pos → map (Step.insert pos content) p bias = p) ∧
    (p = pos → map (Step.insert pos content) p Bias.left = pos ∧
      map (Step.insert pos content) p Bias.right = pos + content.length) := by
  refine ⟨fun h => ?_, fun h => ?_, fun h => ?_⟩
  · have h1 : ¬ p < pos := by omega
    have h2 : ¬ p = pos := by omega
    simp [map, mapInsert, h1, h2]
  · simp [map, mapInsert, h]
  · subst h
    simp [map, mapInsert]

/-- Mapping through Insert(3, "ab") at positions 5, 2 and 3. -/
theorem map_insert_witness :
    map (Step.insert 3 (plainText "ab")) 5 Bias.left = 7 ∧
    map (Step.insert 3 (plainText "ab")) 2 Bias.right = 2 ∧
    map (Step.insert 3 (plainText "ab")) 3 Bias.left = 3 ∧
    map (Step.insert 3 (plainText "ab")) 3 Bias.right = 5 :=
  ⟨(map_insert 3 (plainText "ab") 5 Bias.left).1 (by decide),
   (map_insert 3 (plainText "ab") 2 Bias.right).2.1 (by decide),
   (map_insert 3 (plainText "ab") 3 Bias.left).2.2 rfl⟩

/-- C3: mapping through Delete(from, to) with from <= to sends a position p to
p - (to - from) when p >= to, to from when from <= p < to, and leaves it when
p < from, whatever the bias. -/
theorem map_delete (start stop p : Nat) (bias : Bias) (h : start ≤ stop) :
    (stop ≤ p → map (Step.delete start stop) p bias = p - (stop - start)) ∧
    (start ≤ p → p < stop → map (Step.delete start stop) p bias = start) ∧
    (p < start → map (Step.delete start stop) p bias = p) := by
  refine ⟨fun h1 => ?_, fun h1 h2 => ?_, fun h1 => ?_⟩
  · simp [map, mapDelete, h1]
  · have h3 : ¬ stop ≤ p := by omega
    simp [map, mapDelete, h1, h3]
  · have h3 : ¬ stop ≤ p := by omega
    have h4 : ¬ start ≤ p := by omega
    simp [map, mapDelete, h3, h4]

/-- Mapping through Delete(2, 6) at positions 9, 4 and 1. -/
theorem map_delete_witness :
    map (Step.delete 2 6) 9 Bias.left = 5 ∧
    map (Step.delete 2 6) 4 Bias.right = 2 ∧
    map (Step.delete 2 6) 1 Bias.left = 1 :=
  ⟨(map_delete 2 6 9 Bias.left (by decide)).1 (by decide),
   (map_delete 2 6 4 Bias.right (by decide)).2.1 (by decide) (by decide),
   (map_delete 2 6 1 Bias.left (by decide)).2.2 (by decide)⟩

/-- C4 (as stated): in the editor, an annotation created by addAnnotation on
the selection [6,11) of "Hello world" is recorded with position 6, and after
Delete(0,6) has been dispatched the record still holds position 6, not 0: the
stored anchor is not re-mapped.  The annotation node inserted into the document
is all that is left of the document and still contains "world". -/
theorem annotation_record_not_remapped :
    let env : Env := ⟨false, false, none⟩
    let ed0 : HypertextEditor EditorState :=
      ⟨some ⟨plainText "Hello world", ⟨6, 11⟩, 0, [], "me"⟩, [], some ⟨6, 11⟩, true⟩
    let ed1 := ( addAnnotation engine env "1" "2026-01-01" ed0 "world" "note").1
    let ed2 := (dispatchTransaction engine env ed1 ⟨[Step.delete 0 6], true⟩).1
    ed1.annotations = [⟨"1", "Current User", "2026-01-01", "note", 6⟩] ∧
    ed2.annotations = [⟨"1", "Current User", "2026-01-01", "note", 6⟩] ∧
    ed2.annotations.map (fun a => a.position) ≠ [0] ∧
    ed2.editorView.map (fun st => st.doc) =
      some (annotationNode "1" "Current User" "2026-01-01" "world") ∧
    ed2.editorView.map (fun st => textOf st.doc) = some "world" := by
  decide

/-- C4 (amended): mapping the anchor [6,11) of "Hello world", which covers
"world", through Delete(0,6) gives [0,5), not collapsed, and that range covers
"world" in the new document "world", whatever the bias; the editor itself does
not re-map annotation records: neither a dispatched transaction nor a remote
update changes the annotations list. -/
theorem annotation_anchor_preservation {σ : Type} (pm : ProseMirror σ) (env : Env)
    (ed : HypertextEditor σ) (tr : Transaction) (update : Update) (bias : Bias)
    (id author timestamp comment : String) :
    let t := plainText "Hello world"
    let a : Annotation := ⟨id, author, timestamp, comment, 6, 11, false⟩
    let a' : Annotation := ⟨id, author, timestamp, comment, 0, 5, false⟩
    coveredText t a = "world" ∧
    apply (validate hypertextSchema) t (Step.delete 0 6) = some (plainText "world") ∧
    (on_steps_applied bias ⟨[a], []⟩ [Step.delete 0 6]).annotations = [a'] ∧
    coveredText (plainText "world") a' = "world" ∧
    (dispatchTransaction pm env ed tr).1.annotations = ed.annotations ∧
    (onCollaborativeUpdate pm env ed update).annotations = ed.annotations := by
  refine ⟨rfl, by decide, ?_, rfl, ?_, ?_⟩
  · cases bias <;> rfl
  · unfold dispatchTransaction
    cases ed.editorView with
    | none => rfl
    | some view =>
      simp only
      split <;> rfl
  · unfold onCollaborativeUpdate
    split <;> rfl

/-- C5 (as stated): the law fails whichever bias is used.  For Delete(0,6) on
"Hello world", position 6 lies outside the deleted range [0,6) but mapping
forth and back with left bias on the way back gives 0; position 3 lies inside
the deleted range and the forward mapping collapses to 0 while mapping back
with right bias gives 6, a different boundary.  For AddMark(0,3) on "abc",
which deletes nothing, position 1 does not come back to 1.  The last part does
not depend on how the inverse is computed: RemoveMark(0,3) turns the run
"abc" marked on a and c into the unmarked run, and no step that turns the
unmarked run back into the marked one leaves position 1 in place. -/
theorem mapping_inverse_law_fails :
    let t := plainText "Hello world"
    let s := Step.delete 0 6
    let m := Step.addMark 0 3 commentMark
    apply (validate hypertextSchema) t s = some (plainText "world") ∧
    inDeletedRange s 6 = false ∧
    (∀ b, map (invert s t) (map s 6 b) Bias.left = 0) ∧
    inDeletedRange s 3 = true ∧
    (∀ b, map s 3 b = 0 ∧ map (invert s t) (map s 3 b) Bias.right = 6) ∧
    (apply (validate hypertextSchema) plainAbc m).isSome = true ∧
    inDeletedRange m 1 = false ∧
    (∀ b b', map (invert m plainAbc) (map m 1 b) b' ≠ 1) ∧
    rewrite markedAbc (Step.removeMark 0 3 "comment") = some plainAbc ∧
    (∀ s', rewrite plainAbc s' = some markedAbc → ∀ b, map s' 1 b ≠ 1) := by
  refine ⟨by decide, by decide, ?_, by decide, ?_, by decide, by decide, ?_, by decide, ?_⟩
  · intro b; cases b <;> decide
  · intro b; cases b <;> decide
  · intro b b'; cases b <;> cases b' <;> decide
  · intro s' h b
    exact no_exact_inverse_keeps_position s' h b

/-- C5 (amended): for every step S applicable to a tree and every position P,
with right bias on both mappings map(invert(S), map(S, P)) = P whenever P lies
outside the range [from, to) that S deletes or re-marks; with left bias the
same holds when P is moreover not the end of a non-empty such range; and for P
inside the range deleted by a Delete or Replace step the left-biased forward
mapping collapses to from, while the round trip gives from under left bias and
to under right bias. -/
theorem mapping_inverse_law (validate : Tree → Bool) (t t' : Tree) (s : Step) (p : Nat)
    (h : apply validate t s = some t') :
    (inTouchedRange s p = false →
      map (invert s t) (map s p Bias.right) Bias.right = p) ∧
    (inTouchedRange s p = false → atRangeEnd s p = false →
      map (invert s t) (map s p Bias.left) Bias.left = p) ∧
    (inDeletedRange s p = true →
      map s p Bias.left = rangeStart s ∧
      map (invert s t) (map s p Bias.left) Bias.left = rangeStart s ∧
      map (invert s t) (map s p Bias.right) Bias.right = rangeEnd s) := by
  have hb := rewrite_bounds t t' s ((apply_eq_some validate t t' s).1 h).1
  cases s with
  | insert pos content =>
    simp only [inTouchedRange, inDeletedRange, atRangeEnd, map, invert, mapInsert, mapDelete]
    refine ⟨fun _ => ?_, fun _ _ => ?_, fun hd => by simp at hd⟩
    · split_ifs <;> omega
    · split_ifs <;> omega
  | delete start stop =>
    simp only [rangeStart, rangeEnd] at hb
    have hl := slice_length t start stop hb.2
    simp only [inTouchedRange, inDeletedRange, atRangeEnd, map, invert, mapInsert, mapDelete,
      rangeStart, rangeEnd, hl, decide_eq_false_iff_not, decide_eq_true_eq]
    refine ⟨fun _ => ?_, fun _ _ => ?_, fun hd => ⟨?_, ?_, ?_⟩⟩ <;> split_ifs <;> omega
  | replace start stop content =>
    simp only [rangeStart, rangeEnd] at hb
    have hl := slice_length t start stop hb.2
    have h1 : start ≤ start + content.length := Nat.le_add_right _ _
    simp only [inTouchedRange, inDeletedRange, atRangeEnd, map, invert,
      rangeStart, rangeEnd, hl, decide_eq_false_iff_not, decide_eq_true_eq]
    rw [mapReplace_right start stop _ p hb.1, mapReplace_left start stop _ p hb.1,
      mapReplace_right start (start + content.length) _ _ h1,
      mapReplace_left start (start + content.length) _ _ h1]
    refine ⟨fun _ => ?_, fun _ _ => ?_, fun hd => ⟨?_, ?_, ?_⟩⟩ <;> split_ifs <;> omega
  | addMark start stop mark =>
    simp only [rangeStart, rangeEnd] at hb
    have hl := slice_length t start stop hb.2
    simp only [inTouchedRange, inDeletedRange, atRangeEnd, map, invert, mapInsert, mapDelete,
      rangeStart, rangeEnd, hl, decide_eq_false_iff_not, decide_eq_true_eq]
    refine ⟨fun _ => ?_, fun _ _ => ?_, fun hd => by simp at hd⟩ <;> split_ifs <;> omega
  | removeMark start stop markType =>
    simp only [rangeStart, rangeEnd] at hb
    have hl := slice_length t start stop hb.2
    simp only [inTouchedRange, inDeletedRange, atRangeEnd, map, invert, mapInsert, mapDelete,
      rangeStart, rangeEnd, hl, decide_eq_false_iff_not, decide_eq_true_eq]
    refine ⟨fun _ => ?_, fun _ _ => ?_, fun hd => by simp at hd⟩ <;> split_ifs <;> omega

/-- The amended mapping inverse law at Delete(0,6) on "Hello world": position 8
comes back to 8 under either bias; position 3, inside the deleted range, maps
to 0 and comes back to 0 under left bias and to 6 under right bias. -/
theorem mapping_inverse_law_witness :
    map (invert (Step.delete 0 6) (plainText "Hello world"))
      (map (Step.delete 0 6) 8 Bias.right) Bias.right = 8 ∧
    map (invert (Step.delete 0 6) (plainText "Hello world"))
      (map (Step.delete 0 6) 8 Bias.left) Bias.left = 8 ∧
    map (Step.delete 0 6) 3 Bias.left = 0 ∧
    map (invert (Step.delete 0 6) (plainText "Hello world"))
      (map (Step.delete 0 6) 3 Bias.left) Bias.left = 0 ∧
    map (invert (Step.delete 0 6) (plainText "Hello world"))
      (map (Step.delete 0 6) 3 Bias.right) Bias.right = 6 :=
  ⟨(mapping_inverse_law (validate hypertextSchema) (plainText "Hello world")
      (plainText "world") (Step.delete 0 6) 8 (by decide)).1 (by decide),
   (mapping_inverse_law (validate hypertextSchema) (plainText "Hello world")
      (plainText "world") (Step.delete 0 6) 8 (by decide)).2.1 (by decide) (by decide),
   (mapping_inverse_law (validate hypertextSchema) (plainText "Hello world")
      (plainText "world") (Step.delete 0 6) 3 (by decide)).2.2 (by decide)⟩

/-- C6: for every step S applicable to a (schema-valid) tree T, applying S to T
and then applying invert(S, T) to the result yields T again. -/
theorem step_inversion_round_trip (validate : Tree → Bool) (t t' : Tree) (s : Step)
    (hvalid : validate t = true) (h : apply validate t s = some t') :
    apply validate t' (invert s t) = some t := by
  rw [apply_eq_some] at h ⊢
  exact ⟨rewrite_invert t t' s h.1, hvalid⟩

/-- The round trip at AddMark(0,3) on a run that already carries the mark on a
and c: the inverse puts the original marking back. -/
theorem step_inversion_round_trip_witness :
    apply (validate hypertextSchema)
      [Item.char 'a' [commentMark], Item.char 'b' [commentMark], Item.char 'c' [commentMark]]
      (invert (Step.addMark 0 3 commentMark) markedAbc) = some markedAbc :=
  step_inversion_round_trip (validate hypertextSchema) markedAbc
    [Item.char 'a' [commentMark], Item.char 'b' [commentMark], Item.char 'c' [commentMark]]
    (Step.addMark 0 3 commentMark) (by decide) (by decide)

/-- C7: for a given document, every successful accept increases the version
and the length of the VersionLog by exactly one and a rejection leaves the
state as it was; over any sequence of submissions the version never decreases,
it grows together with the log by the number of accepted batches, and the
version numbers announced for the accepted batches are consecutive, so that no
two accepted batches share a version number. -/
theorem version_monotonicity (validate : Tree → Bool) (bias : Bias) (c : Coordinator)
    (b : Batch) (batches : List Batch) :
    (∀ v steps, (submit validate bias c b).1 = Reply.accepted v steps →
      v = c.version + 1 ∧ (submit validate bias c b).2.version = c.version + 1 ∧
      (submit validate bias c b).2.log.length = c.log.length + 1) ∧
    (∀ r, (submit validate bias c b).1 = Reply.rejected r → (submit validate bias c b).2 = c) ∧
    c.version ≤ (run validate bias c batches).2.version ∧
    (run validate bias c batches).2.version =
      c.version + (acceptedVersions (run validate bias c batches).1).length ∧
    (run validate bias c batches).2.log.length =
      c.log.length + (acceptedVersions (run validate bias c batches).1).length ∧
    acceptedVersions (run validate bias c batches).1 =
      List.range' (c.version + 1) (acceptedVersions (run validate bias c batches).1).length ∧
    (acceptedVersions (run validate bias c batches).1).Nodup := by
  obtain ⟨h1, h2, h3⟩ := acceptedVersions_run validate bias batches c
  refine ⟨?_, ?_, ?_, h2, h3, h1, ?_⟩
  · intro v steps hv
    rcases submit_cases validate bias c b with ⟨r, hs⟩ | ⟨t, _, _, hs⟩
    · rw [hs] at hv
      simp at hv
    · rw [hs] at hv ⊢
      simp only [Reply.accepted.injEq] at hv
      refine ⟨hv.1.symm, rfl, ?_⟩
      simp [Coordinator.commit]
  · intro r hr
    rcases submit_cases validate bias c b with ⟨r', hs⟩ | ⟨t, _, _, hs⟩
    · rw [hs]
    · rw [hs] at hr
      simp at hr
  · omega
  · rw [h1]
    exact List.nodup_range' _ _

/-- Version monotonicity on "Hello world": accepting Delete(0,6) gives version
1 and a log of length 1; the rejected batch leaves the state as it was. -/
theorem version_monotonicity_witness :
    (submit (validate hypertextSchema) Bias.right helloDoc deleteHello).2.version = 1 ∧
    (submit (validate hypertextSchema) Bias.right helloDoc deleteHello).2.log.length = 1 ∧
    (submit (validate hypertextSchema) Bias.right helloDoc brokenBatch).2 = helloDoc :=
  ⟨((version_monotonicity (validate hypertextSchema) Bias.right helloDoc deleteHello
      [deleteHello, brokenBatch, insertBang]).1 1 [Step.delete 0 6] (by decide)).2.1,
   ((version_monotonicity (validate hypertextSchema) Bias.right helloDoc deleteHello
      [deleteHello, brokenBatch, insertBang]).1 1 [Step.delete 0 6] (by decide)).2.2,
   (version_monotonicity (validate hypertextSchema) Bias.right helloDoc brokenBatch
      [deleteHello, brokenBatch, insertBang]).2.1 RejectReason.schemaViolation (by decide)⟩

/-- C8: when a step of a submitted batch, in the form in which the batch is
applied, produces a tree that violates the schema, the whole batch is rejected
and the canonical tree, the version and the version log are exactly as they
were before the submission. -/
theorem atomic_rejection (validate : Tree → Bool) (bias : Bias) (c : Coordinator) (b : Batch)
    (i : Nat) (s : Step) (u bad : Tree)
    (hs : (finalSteps bias c b)[i]? = some s)
    (hu : rewriteAll c.tree ((finalSteps bias c b).take i) = some u)
    (hbad : rewrite u s = some bad) (hviol : validate bad = false) :
    (∃ r, (submit validate bias c b).1 = Reply.rejected r) ∧
    (submit validate bias c b).2 = c ∧
    (submit validate bias c b).2.tree = c.tree ∧
    (submit validate bias c b).2.version = c.version ∧
    (submit validate bias c b).2.log = c.log := by
  rcases submit_cases validate bias c b with ⟨r, hr⟩ | ⟨t, _, h, _⟩
  · rw [hr]
    exact ⟨⟨r, rfl⟩, rfl, rfl, rfl, rfl⟩
  · have := applyAll_rewriteAll validate _ c.tree t h i s u bad hs hu hbad
    rw [hviol] at this
    exact absurd this (by simp)

/-- Atomic rejection on "Hello world": the second step of the batch opens a
hyperlink node that is never closed; the batch is rejected although its first
step alone would have been accepted, and the state is as before. -/
theorem atomic_rejection_witness :
    (∃ r, (submit (validate hypertextSchema) Bias.right helloDoc brokenBatch).1 =
      Reply.rejected r) ∧
    (submit (validate hypertextSchema) Bias.right helloDoc brokenBatch).2 = helloDoc ∧
    (submit (validate hypertextSchema) Bias.right helloDoc brokenBatch).2.tree = helloDoc.tree ∧
    (submit (validate hypertextSchema) Bias.right helloDoc brokenBatch).2.version =
      helloDoc.version ∧
    (submit (validate hypertextSchema) Bias.right helloDoc brokenBatch).2.log = helloDoc.log :=
  atomic_rejection (validate hypertextSchema) Bias.right helloDoc brokenBatch 1
    (Step.insert 0 [Item.openNode "hyperlink" [("href", "x")]])
    (plainText "Hello world!")
    (Item.openNode "hyperlink" [("href", "x")] :: plainText "Hello world!")
    (by decide) (by decide) (by decide) (by decide)

/-- C9: for every coordinator state whose version is the length of its log,
every sequence of batches and every order in which they arrive, a client that
has edited its local optimistic copy and submitted the edit as a batch against
that version, and whose batch the coordinator accepts, holds after all the
broadcasts have passed through its update listener a tree identical to the
canonical tree, with nothing pending; so does a client that only listens; hence
the trees of any two clients are identical. -/
theorem convergence (validate : Tree → Bool) (bias : Bias) (c : Coordinator)
    (hlog : c.log.length = c.version) (arrival : List Batch)
    (id1 id2 observer : String) (steps1 steps2 : List Step)
    (h1 : acceptedIn validate bias c arrival ⟨id1, c.version, steps1⟩ = true)
    (h2 : acceptedIn validate bias c arrival ⟨id2, c.version, steps2⟩ = true) :
    let final := (run validate bias c arrival).2
    let updates := broadcasts (run validate bias c arrival).1
    let client1 := receiveAll (engineWith bias) (some (editingClient bias id1 c steps1)) updates
    let client2 := receiveAll (engineWith bias) (some (editingClient bias id2 c steps2)) updates
    let client3 := receiveAll (engineWith bias) (some (snapshot observer c)) updates
    client1.map (fun st => st.doc) = some final.tree ∧
    client2.map (fun st => st.doc) = some final.tree ∧
    client3.map (fun st => st.doc) = some final.tree ∧
    client1.map (fun st => st.doc) = client2.map (fun st => st.doc) ∧
    client1.map (fun st => st.unconfirmed) = some [] ∧
    client1.map (fun st => st.version) = some final.version := by
  have hz : unseenSteps c c.version = [] := by
    have hd : c.log.drop c.version = [] := List.drop_eq_nil_of_le (by omega)
    simp [unseenSteps, hd]
  have hid : rebaseStep bias [] = id := funext (rebaseStep_nil bias)
  have start : ∀ (id : String) (steps : List Step),
      (editingClient bias id c steps).unconfirmed =
        steps.map (rebaseStep bias (unseenSteps c c.version)) := by
    intro id steps
    rw [hz, hid, List.map_id]
    rfl
  obtain ⟨s1, a1, a2, a3, a4, _⟩ := receiveAll_run validate bias ⟨id1, c.version, steps1⟩
    arrival c (editingClient bias id1 c steps1) hlog (Nat.le_refl _) rfl rfl
    (Or.inr (start id1 steps1))
  obtain ⟨s2, b1, b2, _, b4, _⟩ := receiveAll_run validate bias ⟨id2, c.version, steps2⟩
    arrival c (editingClient bias id2 c steps2) hlog (Nat.le_refl _) rfl rfl
    (Or.inr (start id2 steps2))
  obtain ⟨s3, c1, c2, _, _, c5⟩ := receiveAll_run validate bias ⟨observer, c.version, []⟩
    arrival c (snapshot observer c) hlog (Nat.le_refl _) rfl rfl (Or.inl rfl)
  have e1 : s1.unconfirmed = [] := by
    rcases a4 with h | h
    · exact h
    · rw [h1] at h
      exact absurd h (by decide)
  have e2 : s2.unconfirmed = [] := by
    rcases b4 with h | h
    · exact h
    · rw [h2] at h
      exact absurd h (by decide)
  have e3 : s3.unconfirmed = [] := c5 rfl
  have d1 : s1.doc = (run validate bias c arrival).2.tree := by
    simp [EditorState.doc, e1, a2, applyLocal]
  have d2 : s2.doc = (run validate bias c arrival).2.tree := by
    simp [EditorState.doc, e2, b2, applyLocal]
  have d3 : s3.doc = (run validate bias c arrival).2.tree := by
    simp [EditorState.doc, e3, c2, applyLocal]
  simp only [a1, b1, c1, Option.map_some', d1, d2, d3, e1, a3, and_self]

/-- C9, on "Hello world" with client A deleting "Hello " and client B
appending "!": B holds "Hello world!" before any broadcast, the canonical tree
is "world!" in either arrival order, and A and B both hold it after the
broadcasts. -/
theorem convergence_witness :
    (editingClient Bias.right "B" helloDoc [Step.insert 11 (plainText "!")]).doc =
      plainText "Hello world!" ∧
    (run (validate hypertextSchema) Bias.right helloDoc [deleteHello, insertBang]).2.tree =
      plainText "world!" ∧
    (run (validate hypertextSchema) Bias.right helloDoc [insertBang, deleteHello]).2.tree =
      plainText "world!" ∧
    (receiveAll (engineWith Bias.right)
      (some (editingClient Bias.right "B" helloDoc [Step.insert 11 (plainText "!")]))
      (broadcasts (run (validate hypertextSchema) Bias.right helloDoc
        [deleteHello, insertBang]).1)).map (fun st => st.doc) =
      some (run (validate hypertextSchema) Bias.right helloDoc
        [deleteHello, insertBang]).2.tree ∧
    (receiveAll (engineWith Bias.right)
      (some (editingClient Bias.right "A" helloDoc [Step.delete 0 6]))
      (broadcasts (run (validate hypertextSchema) Bias.right helloDoc
        [insertBang, deleteHello]).1)).map (fun st => st.doc) =
      some (run (validate hypertextSchema) Bias.right helloDoc
        [insertBang, deleteHello]).2.tree :=
  ⟨by decide, by decide, by decide,
   (convergence (validate hypertextSchema) Bias.right helloDoc rfl [deleteHello, insertBang]
      "A" "B" "C" [Step.delete 0 6] [Step.insert 11 (plainText "!")]
      (by decide) (by decide)).2.1,
   (convergence (validate hypertextSchema) Bias.right helloDoc rfl [insertBang, deleteHello]
      "A" "B" "C" [Step.delete 0 6] [Step.insert 11 (plainText "!")]
      (by decide) (by decide)).1⟩

/-- C10: a batch that was accepted and is submitted again (same clientId,
version and steps), at once or after any further submissions, is rejected as a
duplicate with the document tree, the version and the log unchanged; whatever
is submitted after its acceptance, the log holds exactly one entry for it, so
its steps are never applied a second time. -/
theorem idempotent_acceptance (validate : Tree → Bool) (bias : Bias) (c : Coordinator)
    (b : Batch) (later : List Batch) (v : Nat) (steps : List Step)
    (hfresh : (c.log.map LogEntry.key).Nodup)
    (hacc : (submit validate bias c b).1 = Reply.accepted v steps) :
    let c1 := (submit validate bias c b).2
    let c2 := (run validate bias c1 later).2
    submit validate bias c2 b = (Reply.rejected RejectReason.duplicate, c2) ∧
    (submit validate bias c2 b).2.tree = c2.tree ∧
    (submit validate bias c2 b).2.version = c2.version ∧
    (c2.log.filter (fun e => decide (e.key = b.key))).length = 1 ∧
    ((submit validate bias c2 b).2.log.filter (fun e => decide (e.key = b.key))).length = 1 := by
  intro c1 c2
  have hmem1 : b.key ∈ c1.log.map LogEntry.key := by
    rcases submit_cases validate bias c b with ⟨r, hs⟩ | ⟨t, _, _, hs⟩
    · rw [hs] at hacc
      simp at hacc
    · show b.key ∈ (submit validate bias c b).2.log.map LogEntry.key
      rw [hs]
      simp [Coordinator.commit, LogEntry.key, Batch.key]
  have hn1 := (submit_log validate bias c b hfresh).1
  obtain ⟨hn2, hsub⟩ := run_log validate bias later c1 hn1
  have hmem2 : b.key ∈ c2.log.map LogEntry.key := hsub _ hmem1
  have hdup : submit validate bias c2 b = (Reply.rejected RejectReason.duplicate, c2) :=
    submit_duplicate validate bias c2 b ((isDuplicate_iff c2 b).2 hmem2)
  have hcount := filter_key_length b.key c2.log hn2 hmem2
  refine ⟨hdup, ?_, ?_, hcount, ?_⟩
  · rw [hdup]
  · rw [hdup]
  · rw [hdup]; exact hcount

/-- After Delete(0,6) and Insert(11, "!") were accepted on "Hello world", submitting Delete(0,6) again is rejected as a duplicate and the document stays "world!". -/
theorem idempotent_acceptance_witness :
    let c2 := (run (validate hypertextSchema) Bias.right helloDoc [deleteHello, insertBang]).2
    submit (validate hypertextSchema) Bias.right c2 deleteHello =
      (Reply.rejected RejectReason.duplicate, c2) ∧
    textOf (submit (validate hypertextSchema) Bias.right c2 deleteHello).2.tree = "world!" :=
  ⟨(idempotent_acceptance (validate hypertextSchema) Bias.right helloDoc deleteHello
      [insertBang] 1 [Step.delete 0 6] (by decide) (by decide)).1,
   by decide⟩

/-- C12: for the hyperlink node, the annotation node and the comment mark, and
for every attribute record whose values are strings (or null for title and
timestamp, which declare a default of null), applying getAttrs to the element
produced by toDOM returns the original record, and the element matches the tag
selector of the parse rule of that type. -/
theorem dom_mapping_preserves_attributes (href id author comment : String)
    (title timestamp : Option String) :
    hyperlinkGetAttrs (hyperlinkToDOM ⟨some href, title⟩) = ⟨some href, title⟩ ∧
    matchesSelector (hyperlinkToDOM ⟨some href, title⟩) hyperlinkTag = true ∧
    annotationGetAttrs (annotationToDOM ⟨some id, some author, timestamp⟩) =
      ⟨some id, some author, timestamp⟩ ∧
    matchesSelector (annotationToDOM ⟨some id, some author, timestamp⟩) annotationTag = true ∧
    commentGetAttrs (commentToDOM ⟨some id, some comment⟩) = ⟨some id, some comment⟩ ∧
    matchesSelector (commentToDOM ⟨some id, some comment⟩) commentTag = true := by
  refine ⟨?_, ?_, ?_, ?_, ?_, ?_⟩
  · cases title <;> rfl
  · cases title <;> rfl
  · cases timestamp <;> rfl
  · cases timestamp <;> rfl
  · rfl
  · rfl

/-- C13 (the code at the failing input): in collaborative mode, with the object
that preload.js exposes as window.hypertextAPI, a document-changing transaction
leaves sendable steps (version 0, the inserted step, the client id) but no
message is sent: the call of sendCollaborativeUpdate raises a TypeError, because
the object has no such method.  With an object that has the method the one
message is sent, with the version, steps and client id of the sendable. -/
theorem submission_fails_with_preload_api :
    let env : Env := ⟨true, false, some preloadHypertextAPI⟩
    let r := dispatchTransaction engine env helloEditor appendBang
    r.1.editorView.map (fun st => engine.sendableSteps st) =
      some (some ⟨0, [Step.insert 11 (plainText "!")], "me"⟩) ∧
    r.2.1 = [] ∧
    submissions r.2.1 = [] ∧
    r.2.2 = some (JsError.typeError "window.hypertextAPI.sendCollaborativeUpdate") ∧
    (dispatchTransaction engine ⟨true, false, some completeHypertextAPI⟩ helloEditor
      appendBang).2.1 =
      [Effect.sendCollaborativeUpdate 0 [Step.insert 11 (plainText "!")] "me"] := by
  decide

/-- C14 (as stated): with the listener registered, an update delivered while the
editor view does not exist is applied to nothing and is gone: the component
has no editor state before and none after. -/
theorem update_dropped_without_view :
    let env : Env := ⟨true, false, some preloadHypertextAPI⟩
    let noView : HypertextEditor EditorState := ⟨none, [], none, false⟩
    let update : Update := ⟨[Step.insert 0 (plainText "a")], 1⟩
    listenerRegistered env = true ∧
    handleCollabUpdate engine (none : Option EditorState) update = none ∧
    (onCollaborativeUpdate engine env noView update).editorView = none ∧
    (handleEvents engine env noView
      [EditorEvent.delivered update]).1.editorView = none := by
  decide

/-- C14 (amended): an update delivered to the listener while the editor view
exists is applied to the state of the view, with its steps and version; an
update delivered while the editor view does not exist is dropped; and an
update reaches the component only when the listener is registered. -/
theorem update_applied_when_view_exists {σ : Type} (pm : ProseMirror σ) (env : Env)
    (ed : HypertextEditor σ) (view : σ) (update : Update) :
    handleCollabUpdate pm (some view) update =
      some (pm.applySteps view update.steps update.version) ∧
    handleCollabUpdate pm none update = none ∧
    (onCollaborativeUpdate pm env ed update).editorView =
      if listenerRegistered env then
        ed.editorView.map (fun v => pm.applySteps v update.steps update.version)
      else ed.editorView := by
  refine ⟨rfl, rfl, ?_⟩
  unfold onCollaborativeUpdate
  split
  · cases h : ed.editorView <;> simp [handleCollabUpdate, h]
  · rfl

/-- C15 (as stated): an annotation created on the selection [6,11) is recorded
with position 6; after a remote update Delete(0,6) and a local transaction
Insert(0, "abc") have been applied the record still holds 6, although mapping
6 through these steps gives 3. -/
theorem anchors_not_remapped_by_updates :
    let env : Env := ⟨true, false, some completeHypertextAPI⟩
    let ed1 := ( addAnnotation engine env "1" "2026-01-01" helloEditor "world" "note").1
    let events := [EditorEvent.delivered ⟨[Step.delete 0 6], 1⟩,
      EditorEvent.dispatched ⟨[Step.insert 0 (plainText "abc")], true⟩]
    let ed2 := (handleEvents engine env ed1 events).1
    ed1.annotations.map (fun a => a.position) = [6] ∧
    ed2.annotations.map (fun a => a.position) = [6] ∧
    mapThrough [Step.delete 0 6, Step.insert 0 (plainText "abc")] 6 Bias.right = 3 ∧
    ed2.editorView.map (fun st => textOf st.doc) = some "abcworld" := by
  decide

/-- C15 (amended): no sequence of document-changing transactions, local or
remote, changes the annotations list: the position stored in an annotation
record is never mapped and stays what addAnnotation recorded. -/
theorem annotations_unchanged_by_updates {σ : Type} (pm : ProseMirror σ) (env : Env)
    (events : List EditorEvent) :
    ∀ ed : HypertextEditor σ, (handleEvents pm env ed events).1.annotations = ed.annotations := by
  induction events with
  | nil => intro ed; rfl
  | cons ev rest ih =>
    intro ed
    simp only [handleEvents]
    rw [ih, handleEvent_annotations]

/-- C16 (as stated): annotations created on the selections [6,11) and [6,8)
give the same record: it holds the start of the selection only, not its
end. -/
theorem annotation_record_has_no_range_end :
    let wide : HypertextEditor EditorState :=
      { helloEditor with currentSelection := some ⟨6, 11⟩ }
    let narrow : HypertextEditor EditorState :=
      { helloEditor with currentSelection := some ⟨6, 8⟩ }
    ( addAnnotation engine plainEnv "1" "2026-01-01" wide "world" "note").1.annotations =
      [⟨"1", "Current User", "2026-01-01", "note", 6⟩] ∧
    ( addAnnotation engine plainEnv "1" "2026-01-01" narrow "world" "note").1.annotations =
      [⟨"1", "Current User", "2026-01-01", "note", 6⟩] := by
  decide

/-- C16 (amended): when addAnnotation runs with an editor view and a current
selection and completes, it appends exactly one record, which carries the
identifier (the clock reading), the author, the timestamp, the comment text
and a single position, the start of the selection. -/
theorem annotation_record_fields {σ : Type} (pm : ProseMirror σ) (env : Env)
    (now iso text comment : String) (ed : HypertextEditor σ) (view : σ) (sel : EditorSelection)
    (hview : ed.editorView = some view) (hsel : ed.currentSelection = some sel)
    (hok : ( addAnnotation pm env now iso ed text comment).2.2 = none) :
    ( addAnnotation pm env now iso ed text comment).1.annotations =
      ed.annotations ++ [⟨now, "Current User", iso, comment, sel.fromPos⟩] := by
  unfold addAnnotation at hok ⊢
  simp only [hview, hsel] at hok ⊢
  split
  · rfl
  · rename_i e he
    rw [he] at hok
    simp at hok

/-- The record for an annotation on "world" in "Hello world". -/
theorem annotation_record_fields_witness :
    ( addAnnotation engine plainEnv "1" "2026-01-01" helloEditor "world" "note").1.annotations =
      [] ++ [⟨"1", "Current User", "2026-01-01", "note", 6⟩] :=
  annotation_record_fields engine plainEnv "1" "2026-01-01" "world" "note" helloEditor
    helloView ⟨6, 11⟩ rfl rfl (by decide)

/-- C17 (the code at the failing input): two annotations made for two different
users both carry the author 'Current User', the constant of line 187. -/
theorem annotation_author_is_constant :
    (( addAnnotation engine plainEnv "1" "2026-01-01" helloEditor "world"
        "a note by alice").1.annotations.map (fun a => a.author)) = ["Current User"] ∧
    (( addAnnotation engine plainEnv "2" "2026-01-02" helloEditor "world"
        "a note by bob").1.annotations.map (fun a => a.author)) = ["Current User"] := by
  decide

/-- C18: for every document, every setup and every parser, the editor state
created in collaborative mode has exactly one collaboration plugin, configured
with version 0; the state created in non-collaborative mode has no
collaboration plugin, only the plugins of exampleSetup. -/
theorem collaborative_state_starts_at_version_zero {α δ : Type} (parse : String → δ)
    (createAndFill : δ) (exampleSetup : List α) (document : Option DocumentProp) :
    (createEditorState parse createAndFill exampleSetup true true document).map collabVersions =
      some [0] ∧
    (createEditorState parse createAndFill exampleSetup true false document).map collabVersions =
      some [] ∧
    (createEditorState parse createAndFill exampleSetup true false document).map
      (fun st => st.plugins) = some (exampleSetup.map Plugin.setup) := by
  refine ⟨?_, ?_, ?_⟩
  · simp [createEditorState, collabVersions, editorPlugins, List.filterMap_append]
  · simp [createEditorState, collabVersions, editorPlugins]
  · simp [createEditorState, editorPlugins]

/-- C19: with the object that preload.js exposes as `window.hypertextAPI`, and
without such an object, no sequence of local edits and delivered updates makes
the component submit a batch, so no batch is submitted while an earlier one
awaits its acknowledgement; every local edit is applied to the state of the
view all the same, and on "Hello world" two edits in a row are both held as
pending steps at version 0. -/
theorem no_submission_before_acknowledgement {σ : Type} (pm : ProseMirror σ)
    (isCollaborative onChange : Bool) (ed : HypertextEditor σ) (events : List EditorEvent)
    (view : σ) (tr : Transaction) :
    submissions (handleEvents pm ⟨isCollaborative, onChange, some preloadHypertextAPI⟩ ed
      events).2 = [] ∧
    submissions (handleEvents pm ⟨isCollaborative, onChange, none⟩ ed events).2 = [] ∧
    (dispatchTransaction pm ⟨isCollaborative, onChange, some preloadHypertextAPI⟩
      { ed with editorView := some view } tr).1.editorView = some (pm.apply view tr) ∧
    (dispatchTransaction pm ⟨isCollaborative, onChange, none⟩
      { ed with editorView := some view } tr).1.editorView = some (pm.apply view tr) ∧
    (handleEvents engine ⟨true, false, some preloadHypertextAPI⟩ helloEditor
      [EditorEvent.dispatched appendBang, EditorEvent.dispatched appendQuery]).2 = [] ∧
    (handleEvents engine ⟨true, false, some preloadHypertextAPI⟩ helloEditor
      [EditorEvent.dispatched appendBang,
       EditorEvent.dispatched appendQuery]).1.editorView.map engine.sendableSteps =
      some (some ⟨0, [Step.insert 11 (plainText "!"), Step.insert 12 (plainText "?")], "me"⟩) ∧
    (handleEvents engine ⟨true, false, some preloadHypertextAPI⟩ helloEditor
      [EditorEvent.dispatched appendBang,
       EditorEvent.dispatched appendQuery]).1.editorView.map (fun st => textOf st.doc) =
      some "Hello world!?" := by
  refine ⟨handleEvents_no_submission pm _ (Or.inr rfl) events ed,
    handleEvents_no_submission pm _ (Or.inl rfl) events ed, ?_, ?_, by decide, by decide,
    by decide⟩
  · exact dispatchTransaction_applies pm _ ed view tr
  · exact dispatchTransaction_applies pm _ ed view tr

/-- C20: for every item content and whatever the structural replacements
produce, the converted text, and the text appended for the item, contain no
'<' followed by characters other than '>' and then '>': no HTML tag
remains. -/
theorem tex_conversion_leaves_no_tag (structural : String → String) (content : Option String) :
    containsTag (texContent structural content).toList = false ∧
    containsTag (appendedTex structural content).toList = false ∧
    (¬ ∃ a b c : List Char, (texContent structural content).toList = a ++ '<' :: (b ++ '>' :: c) ∧
        '>' ∉ b) ∧
    (¬ ∃ a b c : List Char, (appendedTex structural content).toList = a ++ '<' :: (b ++ '>' :: c) ∧
        '>' ∉ b) := by
  have h1 : containsTag (texContent structural content).toList = false :=
    (removeTags_spec _ _ (Nat.le_refl _)).2
  have h2 : containsTag (appendedTex structural content).toList = false := by
    have : (appendedTex structural content).toList =
        (texContent structural content).toList ++ ['\n', '\n'] := by
      simp [appendedTex, String.toList]
    rw [this]
    exact containsTag_append _ _ h1 (by decide) (by decide)
  refine ⟨h1, h2, ?_, ?_⟩
  · rintro ⟨a, b, c, h, _⟩
    rw [h, containsTag_of_match] at h1
    exact absurd h1 (by simp)
  · rintro ⟨a, b, c, h, _⟩
    rw [h, containsTag_of_match] at h2
    exact absurd h2 (by simp)

/-- C21: when a call of `loadPage` made in a state with history H and index i
completes, the history is the first i + 1 entries of H followed by the
normalised URL, the index is the last position of that history, and the
current URL is the entry there. -/
theorem history_update_on_load (mockContent : String → String → String)
    (captured st : Browser) (url : String) :
    (loadPageEnd mockContent captured st url).pageHistory =
      captured.pageHistory.take (captured.historyIndex + 1) ++ [normalizeUrl url] ∧
    (loadPageEnd mockContent captured st url).historyIndex + 1 =
      (loadPageEnd mockContent captured st url).pageHistory.length ∧
    (loadPageEnd mockContent captured st url).pageHistory[
      (loadPageEnd mockContent captured st url).historyIndex]? =
      (loadPageEnd mockContent captured st url).currentUrl ∧
    (loadPageEnd mockContent captured st url).currentUrl = some (normalizeUrl url) ∧
    (loadPage mockContent captured url).pageHistory =
      captured.pageHistory.take (captured.historyIndex + 1) ++ [normalizeUrl url] ∧
    (loadPage mockContent captured url).historyIndex =
      min (captured.historyIndex + 1) captured.pageHistory.length := by
  refine ⟨rfl, ?_, ?_, rfl, rfl, ?_⟩
  · simp [loadPageEnd]
  · simp only [loadPageEnd, List.length_append, List.length_singleton, Nat.add_sub_cancel]
    rw [List.getElem?_append_right (Nat.le_refl _)]
    simp
  · simp [loadPage, loadPageEnd]

/-- C22: with no open document and no selected page `startExport` leaves the
state as it is and only raises the alert; with pages selected the content is
those pages in their order, each reduced to title, content and url; with none
selected it is the one open document, with 'Document' for a missing or empty
title and the path as url; and that content is what the method of
`window.exportAPI` is called on. -/
theorem export_content_selection (toUpperCase : String → String)
    (document : Option OpenDocument) (exportAPI : Option (List String)) (st : ExportPanel) :
    (document = none → st.selectedPages = [] →
      startExport toUpperCase document exportAPI st =
        (st, [ExportEffect.alert
          "No content to export. Please open a document or select pages from crawl results."])) ∧
    (st.selectedPages ≠ [] →
      contentToExport document st.selectedPages =
        some (st.selectedPages.map
          (fun page => ⟨page.title, some page.content, some page.url⟩))) ∧
    (∀ d, document = some d → st.selectedPages = [] →
      contentToExport document st.selectedPages =
        some [⟨if d.title = none ∨ d.title = some "" then "Document" else d.title.getD "",
               d.content, d.path⟩]) ∧
    (∀ content methods, contentToExport document st.selectedPages = some content →
      exportAPI = some methods → exportMethod toUpperCase st.exportFormat ∈ methods →
      startExport toUpperCase document exportAPI st =
        ({ st with
           exportStatus := "processing"
           exportProgress := ⟨0, 100, "Preparing export..."⟩ },
         [ExportEffect.callExportAPI (exportMethod toUpperCase st.exportFormat) content])) := by
  refine ⟨?_, ?_, ?_, ?_⟩
  · intro hd hs
    simp [startExport, hd, hs]
  · intro hs
    have : st.selectedPages.length > 0 := List.length_pos.2 hs
    simp [contentToExport, this]
  · intro d hd hs
    subst hd
    rcases d with ⟨title, content, path⟩
    cases title with
    | none => simp [contentToExport, hs, titleOrDefault]
    | some t =>
      by_cases ht : t = ""
      · simp [contentToExport, hs, titleOrDefault, ht]
      · simp [contentToExport, hs, titleOrDefault, ht]
  · intro content methods hc hapi hm
    rw [hapi]
    exact startExport_calls toUpperCase document st content methods hc hm

/-- C22, at each of the three cases. -/
theorem export_content_selection_witness :
    startExport asciiUpperCase none (some preloadExportAPI) ExportPanel.initial =
      (ExportPanel.initial, [ExportEffect.alert
        "No content to export. Please open a document or select pages from crawl results."]) ∧
    contentToExport (some untitledDocument) twoSelected.selectedPages =
      some [⟨cernPage.title, some cernPage.content, some cernPage.url⟩,
            ⟨w3Page.title, some w3Page.content, some w3Page.url⟩] ∧
    contentToExport (some untitledDocument) ExportPanel.initial.selectedPages =
      some [⟨"Document", some "<p>Hi</p>", none⟩] :=
  ⟨(export_content_selection asciiUpperCase none (some preloadExportAPI)
      ExportPanel.initial).1 rfl rfl,
   (export_content_selection asciiUpperCase (some untitledDocument) none twoSelected).2.1
      (by decide),
   (export_content_selection asciiUpperCase (some untitledDocument) none
      ExportPanel.initial).2.2.1 untitledDocument rfl rfl⟩

/-- C23: a query of white space only leaves the state as it is, whatever
`window.knowbotAPI` is; without `window.knowbotAPI` and with a query that has
another character, the search results become the crawled pages, in crawl
order, whose title or whose content contains the query when letter case is
ignored, and the log gets one more line. -/
theorem mock_index_search (toLowerCase : String → String) (st : KnowbotPanel) :
    ((∀ c ∈ st.searchQuery.toList, jsWhiteSpace c = true) →
      ∀ knowbotSearch, performSearch toLowerCase knowbotSearch st = st) ∧
    ((∃ c ∈ st.searchQuery.toList, jsWhiteSpace c = false) →
      ∃ keep : CrawlPage → Bool,
        (∀ page, keep page = true ↔
          containsIgnoringCase toLowerCase page.title st.searchQuery ∨
          containsIgnoringCase toLowerCase page.content st.searchQuery) ∧
        (performSearch toLowerCase none st).searchResults = st.crawlResults.filter keep ∧
        (performSearch toLowerCase none st).crawlResults = st.crawlResults ∧
        (performSearch toLowerCase none st).searchQuery = st.searchQuery ∧
        (performSearch toLowerCase none st).crawlLog.length = st.crawlLog.length + 1) := by
  constructor
  · intro hblank knowbotSearch
    have := (trim_eq_empty st.searchQuery).2 hblank
    simp [performSearch, this]
  · rintro ⟨c, hc, hw⟩
    have hne : trim st.searchQuery ≠ "" := by
      intro he
      have := (trim_eq_empty st.searchQuery).1 he c hc
      rw [hw] at this
      exact absurd this (by decide)
    refine ⟨matchesQuery toLowerCase st.searchQuery, ?_, ?_, ?_, ?_, ?_⟩
    · intro page
      simp only [matchesQuery, includes, Bool.or_eq_true, includesChars_iff,
        containsIgnoringCase]
    · simp [performSearch, hne]
    · simp [performSearch, hne]
    · simp [performSearch, hne]
    · simp [performSearch, hne]

/-- C23, on the three pages of the mock crawl: the query 'PROJECT' finds the
third page, and a query of two blanks leaves the results of the search before
it. -/
theorem mock_index_search_witness :
    (performSearch asciiLowerCase none projectQuery).searchResults = [projectPage] ∧
    performSearch asciiLowerCase none blankQuery = blankQuery ∧
    ∃ keep : CrawlPage → Bool,
      (∀ page, keep page = true ↔
        containsIgnoringCase asciiLowerCase page.title projectQuery.searchQuery ∨
        containsIgnoringCase asciiLowerCase page.content projectQuery.searchQuery) ∧
      (performSearch asciiLowerCase none projectQuery).searchResults =
        projectQuery.crawlResults.filter keep ∧
      (performSearch asciiLowerCase none projectQuery).crawlResults =
        projectQuery.crawlResults ∧
      (performSearch asciiLowerCase none projectQuery).searchQuery =
        projectQuery.searchQuery ∧
      (performSearch asciiLowerCase none projectQuery).crawlLog.length =
        projectQuery.crawlLog.length + 1 :=
  ⟨by decide,
   (mock_index_search asciiLowerCase blankQuery).1 (by decide) none,
   (mock_index_search asciiLowerCase projectQuery).2 ⟨'P', by decide, by decide⟩⟩

/-- C24: with index 0 `navigateBack` changes nothing.  With a positive index i
the handler itself lowers the index to i - 1 and leaves the history as it is,
but the page load it starts then cuts the history after the entry at i,
appends the URL gone back to and moves the index to that new last entry: once
the load has completed the current URL is the entry that was at i - 1, while
the index is i + 1 and not i - 1. -/
theorem back_navigation_appends_to_history (mockContent : String → String → String)
    (st : Browser) :
    (st.historyIndex = 0 → navigateBack mockContent st = st) ∧
    (∀ url, 0 < st.historyIndex → st.pageHistory[st.historyIndex - 1]? = some url →
      (navigateBackClick st).1.historyIndex = st.historyIndex - 1 ∧
      (navigateBackClick st).1.pageHistory = st.pageHistory ∧
      (navigateBackClick st).1.currentUrl = some url ∧
      (navigateBack mockContent st).currentUrl = some (normalizeUrl url) ∧
      (navigateBack mockContent st).pageHistory =
        st.pageHistory.take (st.historyIndex + 1) ++ [normalizeUrl url] ∧
      (navigateBack mockContent st).historyIndex =
        min (st.historyIndex + 1) st.pageHistory.length ∧
      (navigateBack mockContent st).historyIndex ≠ st.historyIndex - 1) := by
  constructor
  · intro h0
    simp [navigateBack, navigateBackClick, h0]
  · intro url hpos hurl
    have hlen : st.historyIndex - 1 < st.pageHistory.length := by
      by_contra hge
      rw [List.getElem?_eq_none (by omega)] at hurl
      exact absurd hurl (by simp)
    have hclick : navigateBackClick st =
        (loadPageBegin { st with historyIndex := st.historyIndex - 1, currentUrl := some url },
         some url) := by
      simp [navigateBackClick, hpos, hurl]
    have hback : navigateBack mockContent st =
        loadPageEnd mockContent st (navigateBackClick st).1 url := by
      simp [navigateBack, hclick]
    have hidx : (navigateBack mockContent st).historyIndex =
        min (st.historyIndex + 1) st.pageHistory.length := by
      rw [hback]
      simp [loadPageEnd]
    refine ⟨?_, ?_, ?_, ?_, ?_, hidx, ?_⟩
    · rw [hclick]; rfl
    · rw [hclick]; rfl
    · rw [hclick]; rfl
    · rw [hback]; rfl
    · rw [hback]; rfl
    · rw [hidx]
      omega

/-- C24, in the browser after the mount and a visit of `www.w3.org`: the index
is 2, and going back leaves four entries and the index 3. -/
theorem back_navigation_appends_to_history_witness :
    visitedW3.pageHistory =
      ["https://info.cern.ch", "https://info.cern.ch", "https://www.w3.org"] ∧
    visitedW3.historyIndex = 2 ∧
    (navigateBack titleOnly visitedW3).pageHistory =
      ["https://info.cern.ch", "https://info.cern.ch", "https://www.w3.org",
       "https://info.cern.ch"] ∧
    (navigateBack titleOnly visitedW3).historyIndex = 3 ∧
    (navigateBack titleOnly visitedW3).historyIndex ≠ visitedW3.historyIndex - 1 :=
  ⟨by decide, by decide, by decide, by decide,
   ((back_navigation_appends_to_history titleOnly visitedW3).2 "https://info.cern.ch"
      (by decide) (by decide)).2.2.2.2.2.2⟩

/-- C25: with a `toUpperCase` that maps the letters a to z to A to Z, the
method name computed for each of the formats 'pdf', 'tex' and 'html' is the
name of a method that the preload script exposes on `exportAPI`, and with that
object `startExport` calls the method whenever there is content. -/
theorem export_method_dispatch_total (toUpperCase : String → String)
    (upper : ∀ c : Char, c.isLower = true →
      toUpperCase (String.singleton c) = String.singleton c.toUpper)
    (format : String) (hf : format ∈ exportFormats) :
    exportMethod toUpperCase format ∈ ["exportToPdf", "exportToTex", "exportToHtml"] ∧
    exportMethod toUpperCase format ∈ preloadExportAPI ∧
    ∀ (document : Option OpenDocument) (st : ExportPanel) (content : List ExportItem),
      st.exportFormat = format → contentToExport document st.selectedPages = some content →
      (startExport toUpperCase document (some preloadExportAPI) st).2 =
        [ExportEffect.callExportAPI (exportMethod toUpperCase format) content] := by
  have hp := upper 'p' (by decide)
  have ht := upper 't' (by decide)
  have hh := upper 'h' (by decide)
  have name : exportMethod toUpperCase format ∈ ["exportToPdf", "exportToTex", "exportToHtml"] := by
    simp only [exportFormats, List.mem_cons, List.mem_singleton, List.not_mem_nil, or_false] at hf
    rcases hf with rfl | rfl | rfl
    · have e : exportMethod toUpperCase "pdf" = "exportTo" ++ (toUpperCase (String.singleton 'p') ++ "df") := rfl
      rw [e, hp]
      decide
    · have e : exportMethod toUpperCase "tex" = "exportTo" ++ (toUpperCase (String.singleton 't') ++ "ex") := rfl
      rw [e, ht]
      decide
    · have e : exportMethod toUpperCase "html" = "exportTo" ++ (toUpperCase (String.singleton 'h') ++ "tml") := rfl
      rw [e, hh]
      decide
  have exposed : exportMethod toUpperCase format ∈ preloadExportAPI := by
    simp only [List.mem_cons, List.mem_singleton, List.not_mem_nil, or_false] at name
    rcases name with e | e | e <;> rw [e] <;> decide
  refine ⟨name, exposed, ?_⟩
  intro document st content hfmt hc
  subst hfmt
  rw [startExport_calls toUpperCase document st content preloadExportAPI hc exposed]

/-- C25, with `toUpperCase` on ASCII text and the format 'tex'. -/
theorem export_method_dispatch_total_witness :
    exportMethod asciiUpperCase "tex" = "exportToTex" ∧
    exportMethod asciiUpperCase "tex" ∈ preloadExportAPI :=
  ⟨by decide,
   (export_method_dispatch_total asciiUpperCase (fun _ _ => rfl) "tex" (by decide)).2.1⟩

/-- C26: after the toggle a page with the url of p is selected exactly when
none was before; the pages with another url are the same, as often and in the
same order; and toggling twice a page whose url was not selected gives the
list back. -/
theorem page_selection_toggle (page : CrawlPage) (prev : List CrawlPage) :
    ((∃ p ∈ togglePageSelection page prev, p.url = page.url) ↔
      ¬ ∃ p ∈ prev, p.url = page.url) ∧
    (togglePageSelection page prev).filter (fun p => p.url != page.url) =
      prev.filter (fun p => p.url != page.url) ∧
    (∀ q, q.url ≠ page.url → (q ∈ togglePageSelection page prev ↔ q ∈ prev)) ∧
    ((¬ ∃ p ∈ prev, p.url = page.url) →
      togglePageSelection page prev = prev ++ [page] ∧
      togglePageSelection page (togglePageSelection page prev) = prev) ∧
    ((∃ p ∈ prev, p.url = page.url) →
      togglePageSelection page prev = prev.filter (fun p => p.url != page.url)) := by
  by_cases h : prev.any (fun p => p.url == page.url) = true
  · have hex : ∃ p ∈ prev, p.url = page.url := by
      simpa using h
    have ht : togglePageSelection page prev = prev.filter (fun p => p.url != page.url) := by
      simp [togglePageSelection, h]
    refine ⟨?_, ?_, ?_, ?_, ?_⟩
    · rw [ht]
      constructor
      · rintro ⟨p, hp, hu⟩
        simp [hu] at hp
      · intro hn
        exact absurd hex hn
    · rw [ht, List.filter_filter]
      simp
    · intro q hq
      rw [ht]
      simp [hq]
    · intro hn
      exact absurd hex hn
    · intro _
      exact ht
  · simp only [Bool.not_eq_true] at h
    have hnex : ¬ ∃ p ∈ prev, p.url = page.url := by
      simpa using h
    have ht : togglePageSelection page prev = prev ++ [page] := by
      simp [togglePageSelection, h]
    have hany : (prev ++ [page]).any (fun p => p.url == page.url) = true := by
      simp
    have hfilter := filter_url_ne_self page prev h
    refine ⟨?_, ?_, ?_, ?_, ?_⟩
    · rw [ht]
      constructor
      · intro _
        exact hnex
      · intro _
        exact ⟨page, by simp, rfl⟩
    · rw [ht, List.filter_append]
      simp
    · intro q hq
      rw [ht]
      simp only [List.mem_append, List.mem_singleton]
      constructor
      · rintro (hm | rfl)
        · exact hm
        · exact absurd rfl hq
      · intro hm
        exact Or.inl hm
    · intro _
      refine ⟨ht, ?_⟩
      rw [ht]
      simp only [togglePageSelection, hany, if_true, List.filter_append, hfilter]
      simp
    · intro hex
      exact absurd hex hnex

/-- C26, at the selection of the first crawled page and a toggle of the second,
and at a toggle of the first. -/
theorem page_selection_toggle_witness :
    togglePageSelection w3Page (togglePageSelection w3Page [cernPage]) = [cernPage] ∧
    togglePageSelection cernPage [cernPage, w3Page] = [w3Page] :=
  ⟨((page_selection_toggle w3Page [cernPage]).2.2.2.1 (by decide)).2,
   ((page_selection_toggle cernPage [cernPage, w3Page]).2.2.2.2
      ⟨cernPage, by decide, rfl⟩).trans (by decide)⟩

/-- C27 (the code at the failing input): `formatBytes` of 0 is '0 Bytes' and
of 1536 is '1.5 KB', but at 2199023255552 bytes (2 * 1024^4) the index is 4,
past the end of `sizes`, and both copies return '2 undefined': the text does
not end in a unit of the list. -/
theorem format_bytes_unit_undefined :
    ExportPanel.formatBytes exactFloorLog exactNumber 0 = "0 Bytes" ∧
    KnowbotPanel.formatBytes exactFloorLog exactNumber 0 = "0 Bytes" ∧
    ExportPanel.formatBytes exactFloorLog exactNumber 1536 = "1.5 KB" ∧
    KnowbotPanel.formatBytes exactFloorLog exactNumber 1536 = "1.5 KB" ∧
    1024 ^ 4 ≤ 2199023255552 ∧
    exactFloorLog 2199023255552 = 4 ∧
    sizes[4]? = none ∧
    ExportPanel.formatBytes exactFloorLog exactNumber 2199023255552 = "2 undefined" ∧
    KnowbotPanel.formatBytes exactFloorLog exactNumber 2199023255552 = "2 undefined" ∧
    ¬ ∃ unit ∈ sizes, ExportPanel.formatBytes exactFloorLog exactNumber 2199023255552 =
        exactNumber 2199023255552 4 ++ " " ++ unit := by
  have h4 : exactFloorLog 2199023255552 = 4 := by
    simp [exactFloorLog, log1024]
  have hE : ExportPanel.formatBytes exactFloorLog exactNumber 2199023255552 = "2 undefined" := by
    simp [ExportPanel.formatBytes, h4, sizes]
    decide
  have hK : KnowbotPanel.formatBytes exactFloorLog exactNumber 2199023255552 = "2 undefined" := by
    simp [KnowbotPanel.formatBytes, h4, sizes]
    decide
  refine ⟨rfl, rfl, by decide, by decide, by decide, h4, rfl, hE, hK, ?_⟩
  rw [hE]
  decide

/-- C28: the URL that `loadPage` loads and records is `http://` or `https://`
followed by a rest; an input that starts with one of the two is used as it is,
any other input gets `https://` put in front, normalising twice is
normalising once, and the normalised URL is what becomes the current URL and
the last entry of the history. -/
theorem url_normalisation (mockContent : String → String → String) (st : Browser)
    (url : String) :
    ((∃ rest, normalizeUrl url = "http://" ++ rest) ∨
      (∃ rest, normalizeUrl url = "https://" ++ rest)) ∧
    ((∃ rest, url = "http://" ++ rest) ∨ (∃ rest, url = "https://" ++ rest) →
      normalizeUrl url = url) ∧
    (¬ ((∃ rest, url = "http://" ++ rest) ∨ (∃ rest, url = "https://" ++ rest)) →
      normalizeUrl url = "https://" ++ url) ∧
    normalizeUrl (normalizeUrl url) = normalizeUrl url ∧
    (loadPage mockContent st url).currentUrl = some (normalizeUrl url) ∧
    (loadPage mockContent st url).pageHistory.getLast? = some (normalizeUrl url) := by
  have pos : ∀ u : String,
      (∃ rest, u = "http://" ++ rest) ∨ (∃ rest, u = "https://" ++ rest) →
      normalizeUrl u = u := by
    intro u h
    have hb : startsWith u "http://" = true ∨ startsWith u "https://" = true :=
      h.imp (startsWith_iff _ _).2 (startsWith_iff _ _).2
    unfold normalizeUrl
    rcases hb with hb | hb <;> simp [hb]
  have neg : ∀ u : String,
      ¬ ((∃ rest, u = "http://" ++ rest) ∨ (∃ rest, u = "https://" ++ rest)) →
      normalizeUrl u = "https://" ++ u := by
    intro u h
    have h1 : startsWith u "http://" = false := by
      cases hs : startsWith u "http://"
      · rfl
      · exact absurd (Or.inl ((startsWith_iff _ _).1 hs)) h
    have h2 : startsWith u "https://" = false := by
      cases hs : startsWith u "https://"
      · rfl
      · exact absurd (Or.inr ((startsWith_iff _ _).1 hs)) h
    unfold normalizeUrl
    simp [h1, h2]
  have starts : (∃ rest, normalizeUrl url = "http://" ++ rest) ∨
      (∃ rest, normalizeUrl url = "https://" ++ rest) := by
    by_cases h : (∃ rest, url = "http://" ++ rest) ∨ (∃ rest, url = "https://" ++ rest)
    · rw [pos url h]
      exact h
    · rw [neg url h]
      exact Or.inr ⟨url, rfl⟩
  refine ⟨starts, pos url, neg url, pos _ starts, ?_, ?_⟩
  · rfl
  · simp [loadPage, loadPageEnd]

/-- C28, at an input without scheme and at an input with one. -/
theorem url_normalisation_witness :
    normalizeUrl "www.w3.org" = "https://" ++ "www.w3.org" ∧
    normalizeUrl "http://info.cern.ch" = "http://info.cern.ch" :=
  ⟨(url_normalisation (fun _ u => u) Browser.initial "www.w3.org").2.2.1 (by
      rintro (⟨rest, h⟩ | ⟨rest, h⟩)
      · have := (startsWith_iff "www.w3.org" "http://").2 ⟨rest, h⟩
        revert this
        decide
      · have := (startsWith_iff "www.w3.org" "https://").2 ⟨rest, h⟩
        revert this
        decide),
   (url_normalisation (fun _ u => u) Browser.initial "http://info.cern.ch").2.1
    (Or.inl ⟨"info.cern.ch", by decide⟩)⟩

end HypertextSync
